import Mathlib

/-!
# QJsonMarshalerLib: the meta-property keepers (`src/metakeepers.h`)

A shallow embedding of the four keeper classes (`QMetaSimpleKeeper`,
`QMetaArrayKeeper<A>`, `QMetaObjectKeeper`, `QMetaObjectArrayKeeper`) and of
the two walkers of `MetaPropertyKeeper` (`getJsonFromObject`,
`fillObjectFromJson`).

Modelling decisions:

* A `QObject` is the ordered list of its named properties. A nested object is
  owned by exactly one property, so an object graph is a finite tree; cyclic
  graphs and objects shared between two properties are outside the model.
* A `QObject*` stored in a `std::vector<QObject*>` may be the null pointer:
  the elements of an object-array property are `Option (QObject V T)`.
* Mutation is explicit state passing: an operation that writes returns a
  `Result` holding the state reached and the exception that left the call,
  if any. The state is kept on failure because the code performs no rollback.
* `QVariant`, `QMetaProperty::read/write` and `QJsonValue::fromVariant`
  belong to Qt; they are taken as the parameter `QVariantLayer`.
* A `QJsonObject` is the list of its members in the order of
  `QJsonObject::keys()` (ascending keys, no key twice).

Contents: the embedding of the source; the predicates and measures the
theorems are stated with (`skeleton`, `scatter`, `Calls`, `depth`,
`Transferable`, `namesDistinct`); helper lemmas on the scan loop
(`scanKeepers`) and the key loop (`fillKeys`); then one theorem per claim,
`C1` to `C18`.
-/

namespace QJsonMarshaler

/-- The JSON value tree (`QJsonValue`); a number is kept as an integer. -/
inductive JsonValue where
  | null
  | bool (b : Bool)
  | number (n : Int)
  | string (s : String)
  | array (items : List JsonValue)
  | object (members : List (String × JsonValue))

/-- What can leave a call abnormally: the three `QSException` kinds thrown in
`metakeepers.h`, and the dereference of a null `QObject*` (undefined
behaviour in the source, which never tests an element other than the first). -/
inductive QSException where
  | JsonObjectExpected
  | JsonArrayExpected
  | InvalidQObject
  | NullDereference
deriving DecidableEq

/-- The Qt value-conversion layer used by the keepers, over the type `V` of
`QVariant` values and the type `T` of element types `A` of `QMetaArrayKeeper<A>`.
* `fromVariant v` is `QJsonValue::fromVariant(v)`;
* `write old val` is the value held by a property after
  `prop.write(linkedObj, QVariant(val))` when it held `old` before;
* `value A item` is `QVariant(QVariant(item).value<A>())`. -/
structure QVariantLayer (V T : Type) where
  fromVariant : V → JsonValue
  write : V → JsonValue → V
  value : T → JsonValue → V

mutual
/-- A reflective object: its properties, in declaration order. -/
inductive QObject (V T : Type) where
  | mk (props : List (String × Property V T))
/-- The value held by a property; the constructor is the declared type, which
selects the keeper class. -/
inductive Property (V T : Type) where
  | simple (v : V)
  | array (A : T) (vs : List V)
  | object (o : QObject V T)
  | objectArray (os : List (Option (QObject V T)))
end

/-- The state after a writing call, and the exception thrown by it, if any. -/
structure Result (σ : Type) where
  state : σ
  thrown : Option QSException

variable {V T : Type}

/-- The properties of an object. -/
def QObject.props : QObject V T → List (String × Property V T)
  | .mk props => props

/-- Order of `QString` keys inside a `QJsonObject`. -/
def keyLt (a b : String) : Bool := decide (a.data < b.data)

/-- `QJsonObject::insert(key, value)`: replaces the value of an existing key,
otherwise places the new member at its position in key order. -/
def qInsert (key : String) (value : JsonValue) :
    List (String × JsonValue) → List (String × JsonValue)
  | [] => [(key, value)]
  | (k, v) :: rest =>
      if key = k then (key, value) :: rest
      else if keyLt key k then (key, value) :: (k, v) :: rest
      else (k, v) :: qInsert key value rest

/-- `QJsonObject::value(key)`: the value stored under `key`, if any. -/
def qValue (key : String) : List (String × JsonValue) → Option JsonValue
  | [] => none
  | (k, v) :: rest => if key = k then some v else qValue key rest

/-- `QJsonObject::keys()`. -/
def qKeys (members : List (String × JsonValue)) : List String :=
  members.map Prod.fst

/-- Modelled from the spec: `getMetaKeepers(obj)` is declared in
`metakeepers.h` and defined elsewhere. It yields one keeper per declared
property of the object, in declaration order; a keeper is the index of the
property it is bound to, and its class is the constructor of that property. -/
def getMetaKeepers (props : List (String × Property V T)) : List Nat :=
  List.range props.length

/-- `QMetaSimpleKeeper::getValue`. -/
def QMetaSimpleKeeper.getValue (L : QVariantLayer V T) (name : String) (v : V) :
    String × JsonValue :=
  (name, L.fromVariant v)

/-- `QMetaSimpleKeeper::setValue`: the value of the property afterwards. -/
def QMetaSimpleKeeper.setValue (L : QVariantLayer V T) (v : V) (val : JsonValue) : V :=
  L.write v val

/-- `QMetaArrayKeeper<A>::getValue`. -/
def QMetaArrayKeeper.getValue (L : QVariantLayer V T) (name : String) (vs : List V) :
    String × JsonValue :=
  (name, .array (vs.map L.fromVariant))

/-- `QMetaArrayKeeper<A>::setValue`. -/
def QMetaArrayKeeper.setValue (L : QVariantLayer V T) (A : T) (vs : List V) :
    JsonValue → Result (List V)
  | .array arr => ⟨arr.map (L.value A), none⟩
  | _ => ⟨vs, some .JsonArrayExpected⟩

/-- The test `objects->size() == 0 || qobject_cast<QObject*>(objects->at(0)) != nullptr`
of `QMetaObjectArrayKeeper` (`property.data()` is the address of the payload of
the variant and is never null). -/
def firstIsQObject : List (Option (QObject V T)) → Bool
  | [] => true
  | some _ :: _ => true
  | none :: _ => false

mutual
/-- `MetaPropertyKeeper::getJsonFromObject(qo)` for a non-null `qo`. -/
def getJsonFromObject (L : QVariantLayer V T) :
    QObject V T → Except QSException (List (String × JsonValue))
  | .mk props => getJsonFromKeepers L props []
/-- The loop `for(PropertyKeeper * keeper : keepers)` of `getJsonFromObject`,
with the `QJsonObject` built so far. -/
def getJsonFromKeepers (L : QVariantLayer V T) :
    List (String × Property V T) → List (String × JsonValue) →
      Except QSException (List (String × JsonValue))
  | [], json => .ok json
  | (name, p) :: rest, json =>
      match getValue L name p with
      | .error e => .error e
      | .ok keeperValue =>
          getJsonFromKeepers L rest (qInsert keeperValue.1 keeperValue.2 json)
/-- The virtual call `keeper->getValue()` on the keeper of a property. -/
def getValue (L : QVariantLayer V T) (name : String) :
    Property V T → Except QSException (String × JsonValue)
  | .simple v => .ok (QMetaSimpleKeeper.getValue L name v)
  | .array _ vs => .ok (QMetaArrayKeeper.getValue L name vs)
  | .object o =>
      -- QMetaObjectKeeper::getValue
      match getJsonFromObject L o with
      | .error e => .error e
      | .ok result => .ok (name, .object result)
  | .objectArray os =>
      -- QMetaObjectArrayKeeper::getValue
      if firstIsQObject os then
        match getJsonFromObjects L os with
        | .error e => .error e
        | .ok result => .ok (name, .array result)
      else .error .InvalidQObject
/-- The loop `for(QObject * qo : *objects) result.push_back(getJsonFromObject(qo))`. -/
def getJsonFromObjects (L : QVariantLayer V T) :
    List (Option (QObject V T)) → Except QSException (List JsonValue)
  | [] => .ok []
  | none :: _ => .error .NullDereference
  | some qo :: rest =>
      match getJsonFromObject L qo with
      | .error e => .error e
      | .ok j =>
        match getJsonFromObjects L rest with
        | .error e => .error e
        | .ok js => .ok (.object j :: js)
end

/-- The inner loop `for(int i = 0; i < metaKeepers.size(); i++)` of
`fillObjectFromJson` for one key. `before` is `metaKeepers[0..i)` and the
fourth argument is `metaKeepers[i..)`; `set p` is `keeper->setValue(jsonObject.value(key))`
on a keeper whose property holds `p`. After a match the keeper is erased and
`i++` steps over the keeper that moved into position `i`. Returns the state of
the properties and the keepers left in `metaKeepers`. A keeper is always the
index of an existing property (`getMetaKeepers` yields `0 .. n-1` and no write
changes the number of properties); the branch for an index outside the list
only makes the function total. -/
def scanKeepers (L : QVariantLayer V T) (set : Property V T → Result (Property V T))
    (key : String) :
    List Nat → List Nat → List (String × Property V T) →
      Result (List (String × Property V T)) × List Nat
  | before, [], props => (⟨props, none⟩, before)
  | before, keeper :: after, props =>
      match props[keeper]? with
      | none => scanKeepers L set key (before ++ [keeper]) after props
      | some (name, p) =>
        match getValue L name p with
        | .error e => (⟨props, some e⟩, before ++ keeper :: after)
        | .ok keeperValue =>
          if key = keeperValue.1 then
            let r := set p
            let props' := props.set keeper (name, r.state)
            match r.thrown with
            | some e => (⟨props', some e⟩, before ++ keeper :: after)
            | none =>
              match after with
              | [] => (⟨props', none⟩, before)
              | skipped :: after' =>
                  scanKeepers L set key (before ++ [skipped]) after' props'
          else scanKeepers L set key (before ++ [keeper]) after props

mutual
/-- `MetaPropertyKeeper::fillObjectFromJson(qo, json)` for a non-null `qo`. -/
def fillObjectFromJson (L : QVariantLayer V T) :
    QObject V T → JsonValue → Result (QObject V T)
  | .mk props, .object jsonObject =>
      let r := fillKeys L jsonObject (getMetaKeepers props) props
      ⟨.mk r.state, r.thrown⟩
  | qo, _ => ⟨qo, some .JsonObjectExpected⟩
/-- The outer loop `for(QString & key : keys)` of `fillObjectFromJson`, over
the members `(key, jsonObject.value(key))` that are left, with the keepers still
in `metaKeepers` and the current state of the properties. -/
def fillKeys (L : QVariantLayer V T) :
    List (String × JsonValue) → List Nat → List (String × Property V T) →
      Result (List (String × Property V T))
  | [], _, props => ⟨props, none⟩
  | (key, val) :: rest, metaKeepers, props =>
      let r := scanKeepers L (fun p => setValue L p val) key [] metaKeepers props
      match r.1.thrown with
      | some e => ⟨r.1.state, some e⟩
      | none => fillKeys L rest r.2 r.1.state
/-- The virtual call `keeper->setValue(json)` on the keeper of a property
holding the given value. -/
def setValue (L : QVariantLayer V T) : Property V T → JsonValue → Result (Property V T)
  | .simple v, val => ⟨.simple (QMetaSimpleKeeper.setValue L v val), none⟩
  | .array A vs, json =>
      let r := QMetaArrayKeeper.setValue L A vs json
      ⟨.array A r.state, r.thrown⟩
  | .object (.mk props), .object jsonObject =>
      -- QMetaObjectKeeper::setValue is fillObjectFromJson(linkedObj, json)
      let r := fillKeys L jsonObject (getMetaKeepers props) props
      ⟨.object (.mk r.state), r.thrown⟩
  | .object o, _ => ⟨.object o, some .JsonObjectExpected⟩
  | .objectArray os, .array jsonArray =>
      -- QMetaObjectArrayKeeper::setValue
      if firstIsQObject os then
        let r := fillElements L jsonArray os
        ⟨.objectArray r.state, r.thrown⟩
      else ⟨.objectArray os, some .InvalidQObject⟩
  | .objectArray os, _ => ⟨.objectArray os, some .JsonArrayExpected⟩
/-- The loop `for(int i = 0; i < jsonArray.size() && i < objects->size(); i ++)`
of `QMetaObjectArrayKeeper::setValue`. On a null element `fillObjectFromJson`
first tests the shape of the JSON value, and throws `JsonObjectExpected` if it
is not an object; otherwise it goes on to `getMetaKeepers(qo)`, which
dereferences the null pointer. -/
def fillElements (L : QVariantLayer V T) :
    List JsonValue → List (Option (QObject V T)) → Result (List (Option (QObject V T)))
  | [], objects => ⟨objects, none⟩
  | _ :: _, [] => ⟨[], none⟩
  | .object _ :: _, none :: objects => ⟨none :: objects, some .NullDereference⟩
  | _ :: _, none :: objects => ⟨none :: objects, some .JsonObjectExpected⟩
  | item :: jsonArray, some qo :: objects =>
      let r := fillObjectFromJson L qo item
      match r.thrown with
      | some e => ⟨some r.state :: objects, some e⟩
      | none =>
        let rs := fillElements L jsonArray objects
        ⟨some r.state :: rs.state, rs.thrown⟩
end

/-! ## Predicates, expected results and examples used by the theorems -/

mutual
/-- The object is built from scalar properties and nested-object properties
only, and property names are pairwise distinct in every object of the tree. -/
def QObject.isScalarObjectTree : QObject V T → Bool
  | .mk props => decide ((props.map Prod.fst).Nodup) && isScalarObjectTreeProps props
/-- Every property of the list is a scalar or a nested object of that kind. -/
def isScalarObjectTreeProps : List (String × Property V T) → Bool
  | [] => true
  | (_, p) :: rest => p.isScalarObjectTree && isScalarObjectTreeProps rest
/-- The property is a scalar, or a nested object of that kind. -/
def Property.isScalarObjectTree : Property V T → Bool
  | .simple _ => true
  | .array _ _ => false
  | .object o => o.isScalarObjectTree
  | .objectArray _ => false
end

/-- A value layer in which a `QVariant` is represented by its JSON image, so
that every coercion is the identity; used to evaluate the code on examples. -/
def jsonLayer : QVariantLayer JsonValue Unit :=
  ⟨fun v => v, fun _ val => val, fun _ item => item⟩

/-- What one scan may do to the properties: names stay, and a property whose
name differs from the key keeps its value. -/
def Frame (key : String) (props props' : List (String × Property V T)) : Prop :=
  props'.map Prod.fst = props.map Prod.fst ∧
    ∀ (i : Nat) (name : String) (p : Property V T),
      props[i]? = some (name, p) → name ≠ key → props'[i]? = some (name, p)

/-- An object of nesting depth three. -/
def depthThree : QObject JsonValue Unit :=
  .mk [("id", .simple (.number 1)),
       ("inner", .object (.mk [("flag", .simple (.bool true)),
                               ("core", .object (.mk [("s", .simple (.string "z"))]))]))]

/-- An object with the scalar properties `a` and `b`. -/
def twoScalars : QObject JsonValue Unit :=
  .mk [("a", .simple (.number 0)), ("b", .simple (.string "kept"))]

/-- An object whose only property is an object array that starts with a null
pointer. -/
def brokenArrayHolder : QObject JsonValue Unit :=
  .mk [("items", .objectArray [none])]

/-- The sequence an object-array keeper is expected to hold after `setValue`:
element `i` filled from `jsonArray[i]` while both sequences last, then the
existing elements that have no JSON counterpart. -/
def filledPrefix (L : QVariantLayer V T) (objects : List (QObject V T))
    (jsonArray : List JsonValue) : List (QObject V T) :=
  List.zipWith (fun qo item => (fillObjectFromJson L qo item).state) objects jsonArray ++
    objects.drop jsonArray.length

/-- A scalar object with the single property `n`. -/
def counter (n : Int) : QObject JsonValue Unit :=
  .mk [("n", .simple (.number n))]

/-- An object with two properties of the same name. -/
def sameNameTwice : QObject JsonValue Unit :=
  .mk [("k", .simple (.number 1)), ("k", .simple (.number 2))]

/-- An object with the scalar property `a` and the scalar-array property `b`. -/
def scalarThenArray : QObject JsonValue Unit :=
  .mk [("a", .simple (.number 0)), ("b", .array () [])]

mutual
/-- The shape of an object graph: names and kinds of the properties, nested
objects, and for every object array its elements in order (null or object);
scalar values and scalar arrays are erased. -/
def QObject.skeleton : QObject V T → QObject Unit Unit
  | .mk props => .mk (skeletonProps props)
/-- The shapes of the properties of an object. -/
def skeletonProps : List (String × Property V T) → List (String × Property Unit Unit)
  | [] => []
  | (name, p) :: rest => (name, p.skeleton) :: skeletonProps rest
/-- The shape of the value of a property. -/
def Property.skeleton : Property V T → Property Unit Unit
  | .simple _ => .simple ()
  | .array _ _ => .array () []
  | .object o => .object o.skeleton
  | .objectArray os => .objectArray (skeletonObjects os)
/-- The shapes of the elements of an object array. -/
def skeletonObjects : List (Option (QObject V T)) → List (Option (QObject Unit Unit))
  | [] => []
  | none :: rest => none :: skeletonObjects rest
  | some o :: rest => some o.skeleton :: skeletonObjects rest
end

/-- An object holding an array of two objects and a nested object that holds
an array of one object. -/
def arrayHolder : QObject JsonValue Unit :=
  .mk [("list", .objectArray [some (counter 1), some (counter 2)]),
       ("sub", .object (.mk [("inner", .objectArray [some (counter 3)])]))]

/-- What `fillObjectFromJson` is expected to leave in a property: a
property whose name is a key of the JSON object has received `setValue` with
the value under that key, once; the other properties are as they were. -/
def scatterOne (L : QVariantLayer V T) (jsonObject : List (String × JsonValue))
    (np : String × Property V T) : String × Property V T :=
  match qValue np.1 jsonObject with
  | some val => (np.1, (setValue L np.2 val).state)
  | none => np

/-- The properties of an object after each of them went through `scatterOne`. -/
def scatter (L : QVariantLayer V T) (jsonObject : List (String × JsonValue))
    (props : List (String × Property V T)) : List (String × Property V T) :=
  props.map (scatterOne L jsonObject)

/-- A value layer whose scalars count the calls of `setValue`: every write adds
one to the value of the property. -/
def countingLayer : QVariantLayer Nat Unit :=
  ⟨fun v => .number v, fun old _ => old + 1, fun _ _ => 0⟩

/-- An object with the scalar properties `a`, `b`, `c`, `d`, all zero. -/
def fourCounters : QObject Nat Unit :=
  .mk [("a", .simple 0), ("b", .simple 0), ("c", .simple 0), ("d", .simple 0)]

/-! ## The calls made by the walkers and the keepers -/

/-- A call made during serialization or deserialization: `getJsonFromObject(qo)`,
`keeper->getValue()` on the keeper of a property called `name` that holds `p`,
`fillObjectFromJson(qo, json)`, or `keeper->setValue(json)` on the keeper of a
property that holds `p`. -/
inductive Call (V T : Type) where
  | objectToJson (qo : QObject V T)
  | keeperGet (name : String) (p : Property V T)
  | objectFill (qo : QObject V T) (json : JsonValue)
  | keeperSet (p : Property V T) (json : JsonValue)

/-- The exception of a failed read, if any. -/
def errorOf {α : Type} : Except QSException α → Option QSException
  | .error e => some e
  | .ok _ => none

/-- The exception that leaves a call, if any. -/
def Call.thrown (L : QVariantLayer V T) : Call V T → Option QSException
  | .objectToJson qo => errorOf (getJsonFromObject L qo)
  | .keeperGet name p => errorOf (getValue L name p)
  | .objectFill qo json => (fillObjectFromJson L qo json).thrown
  | .keeperSet p json => (setValue L p json).thrown

/-- The keeper calls made by the inner loop of `fillObjectFromJson` for the
member `(key, val)`, from the keepers still to visit and the current state of
the properties: a call is made when every call before it returned normally. -/
inductive ScanCalls (L : QVariantLayer V T) (key : String) (val : JsonValue) :
    List Nat → List (String × Property V T) → Call V T → Prop where
  | get {keeper : Nat} {after : List Nat} {props : List (String × Property V T)}
      {name : String} {p : Property V T} :
      props[keeper]? = some (name, p) →
      ScanCalls L key val (keeper :: after) props (.keeperGet name p)
  | set {keeper : Nat} {after : List Nat} {props : List (String × Property V T)}
      {name : String} {p : Property V T} {kv : String × JsonValue} :
      props[keeper]? = some (name, p) → getValue L name p = .ok kv → key = kv.1 →
      ScanCalls L key val (keeper :: after) props (.keeperSet p val)
  | pass {keeper : Nat} {after : List Nat} {props : List (String × Property V T)}
      {name : String} {p : Property V T} {kv : String × JsonValue} {c : Call V T} :
      props[keeper]? = some (name, p) → getValue L name p = .ok kv → key ≠ kv.1 →
      ScanCalls L key val after props c →
      ScanCalls L key val (keeper :: after) props c
  | absent {keeper : Nat} {after : List Nat} {props : List (String × Property V T)}
      {c : Call V T} :
      props[keeper]? = none → ScanCalls L key val after props c →
      ScanCalls L key val (keeper :: after) props c
  | past {keeper skipped : Nat} {after : List Nat} {props : List (String × Property V T)}
      {name : String} {p : Property V T} {kv : String × JsonValue} {c : Call V T} :
      props[keeper]? = some (name, p) → getValue L name p = .ok kv → key = kv.1 →
      (setValue L p val).thrown = none →
      ScanCalls L key val after (props.set keeper (name, (setValue L p val).state)) c →
      ScanCalls L key val (keeper :: skipped :: after) props c

/-- The keeper calls made by the outer loop of `fillObjectFromJson` over the
members that are left. -/
inductive FillCalls (L : QVariantLayer V T) :
    List (String × JsonValue) → List Nat → List (String × Property V T) → Call V T → Prop where
  | here {key : String} {val : JsonValue} {rest : List (String × JsonValue)}
      {ks : List Nat} {props : List (String × Property V T)} {c : Call V T} :
      ScanCalls L key val ks props c → FillCalls L ((key, val) :: rest) ks props c
  | later {key : String} {val : JsonValue} {rest : List (String × JsonValue)}
      {ks : List Nat} {props : List (String × Property V T)} {c : Call V T} :
      (scanKeepers L (fun p => setValue L p val) key [] ks props).1.thrown = none →
      FillCalls L rest (scanKeepers L (fun p => setValue L p val) key [] ks props).2
        (scanKeepers L (fun p => setValue L p val) key [] ks props).1.state c →
      FillCalls L ((key, val) :: rest) ks props c

/-- The relation `Calls L parent child`: while `parent` runs it makes the call
`child`, every call it made before having returned normally. -/
inductive Calls (L : QVariantLayer V T) : Call V T → Call V T → Prop where
  | toJson_keeper {before after : List (String × Property V T)} {name : String}
      {p : Property V T} :
      (∀ x ∈ before, ∃ kv, getValue L x.1 x.2 = .ok kv) →
      Calls L (.objectToJson (.mk (before ++ (name, p) :: after))) (.keeperGet name p)
  | get_object {name : String} {o : QObject V T} :
      Calls L (.keeperGet name (.object o)) (.objectToJson o)
  | get_element {name : String} {objs : List (QObject V T)} {o : QObject V T}
      {rest : List (Option (QObject V T))} :
      (∀ x ∈ objs, ∃ j, getJsonFromObject L x = .ok j) →
      Calls L (.keeperGet name (.objectArray (objs.map some ++ some o :: rest)))
        (.objectToJson o)
  | fill_keeper {props : List (String × Property V T)} {members : List (String × JsonValue)}
      {c : Call V T} :
      FillCalls L members (getMetaKeepers props) props c →
      Calls L (.objectFill (.mk props) (.object members)) c
  | set_object {o : QObject V T} {json : JsonValue} :
      Calls L (.keeperSet (.object o) json) (.objectFill o json)
  | set_element {objs : List (QObject V T)} {o : QObject V T}
      {rest : List (Option (QObject V T))} {items more : List JsonValue} {item : JsonValue} :
      objs.length = items.length →
      (∀ x ∈ List.zip objs items, (fillObjectFromJson L x.1 x.2).thrown = none) →
      Calls L (.keeperSet (.objectArray (objs.map some ++ some o :: rest))
        (.array (items ++ item :: more))) (.objectFill o item)

/-- An object whose nested object holds a scalar array. -/
def nestedArrayHolder : QObject JsonValue Unit :=
  .mk [("sub", .object (.mk [("xs", .array () [])]))]

/-! ## Nesting depth -/

mutual
/-- Nesting depth of an object graph: one more than the deepest property. -/
def QObject.depth : QObject V T → Nat
  | .mk props => depthProps props + 1
/-- The deepest of the properties of an object. -/
def depthProps : List (String × Property V T) → Nat
  | [] => 0
  | (_, p) :: rest => max p.depth (depthProps rest)
/-- Nesting depth below a property: zero for scalars and scalar arrays. -/
def Property.depth : Property V T → Nat
  | .simple _ => 0
  | .array _ _ => 0
  | .object o => o.depth
  | .objectArray os => depthObjects os
/-- The deepest of the elements of an object array. -/
def depthObjects : List (Option (QObject V T)) → Nat
  | [] => 0
  | none :: rest => depthObjects rest
  | some o :: rest => max o.depth (depthObjects rest)
end

/-- The measure that decreases along calls: twice the nesting depth of the
object of a walker call, and one more than twice the depth below the property
of a keeper call. -/
def Call.rank : Call V T → Nat
  | .objectToJson qo => 2 * qo.depth
  | .keeperGet _ p => 2 * p.depth + 1
  | .objectFill qo _ => 2 * qo.depth
  | .keeperSet p _ => 2 * p.depth + 1

/-! ## Serialization with the object passed as state -/

mutual
/-- `MetaPropertyKeeper::getJsonFromObject(qo)` with the object passed as
state: the object after the call, and the outcome of the call. -/
def getJsonFromObjectRun (L : QVariantLayer V T) :
    QObject V T → QObject V T × Except QSException (List (String × JsonValue))
  | .mk props =>
      let r := getJsonFromKeepersRun L props []
      (.mk r.1, r.2)
/-- The keeper loop of `getJsonFromObject` with the properties passed as state. -/
def getJsonFromKeepersRun (L : QVariantLayer V T) :
    List (String × Property V T) → List (String × JsonValue) →
      List (String × Property V T) × Except QSException (List (String × JsonValue))
  | [], json => ([], .ok json)
  | (name, p) :: rest, json =>
      let r := getValueRun L name p
      match r.2 with
      | .error e => ((name, r.1) :: rest, .error e)
      | .ok keeperValue =>
          let rs := getJsonFromKeepersRun L rest (qInsert keeperValue.1 keeperValue.2 json)
          ((name, r.1) :: rs.1, rs.2)
/-- The call `keeper->getValue()` with the property passed as state;
`prop.read(linkedObj)` returns the value held and leaves it in place. -/
def getValueRun (L : QVariantLayer V T) (name : String) :
    Property V T → Property V T × Except QSException (String × JsonValue)
  | .simple v => (.simple v, .ok (QMetaSimpleKeeper.getValue L name v))
  | .array A vs => (.array A vs, .ok (QMetaArrayKeeper.getValue L name vs))
  | .object o =>
      let r := getJsonFromObjectRun L o
      match r.2 with
      | .error e => (.object r.1, .error e)
      | .ok result => (.object r.1, .ok (name, .object result))
  | .objectArray os =>
      if firstIsQObject os then
        let r := getJsonFromObjectsRun L os
        match r.2 with
        | .error e => (.objectArray r.1, .error e)
        | .ok result => (.objectArray r.1, .ok (name, .array result))
      else (.objectArray os, .error .InvalidQObject)
/-- The element loop of `QMetaObjectArrayKeeper::getValue` with the sequence
passed as state. -/
def getJsonFromObjectsRun (L : QVariantLayer V T) :
    List (Option (QObject V T)) →
      List (Option (QObject V T)) × Except QSException (List JsonValue)
  | [] => ([], .ok [])
  | none :: rest => (none :: rest, .error .NullDereference)
  | some qo :: rest =>
      let r := getJsonFromObjectRun L qo
      match r.2 with
      | .error e => (some r.1 :: rest, .error e)
      | .ok j =>
        let rs := getJsonFromObjectsRun L rest
        match rs.2 with
        | .error e => (some r.1 :: rs.1, .error e)
        | .ok js => (some r.1 :: rs.1, .ok (.object j :: js))
end

/-! ## Graphs of the same shape, distinct names -/

/-- The state of the property `pa` can be moved into the property `pb`:
`getValue` succeeds on both, and `setValue` on `pb` with the JSON value of `pa`
succeeds and leaves a property whose JSON value is that of `pa`. -/
def TransfersTo (L : QVariantLayer V T) (pa pb : Property V T) : Prop :=
  ∀ name : String, (∃ kv, getValue L name pb = .ok kv) ∧
    ∃ v, getValue L name pa = .ok (name, v) ∧ (setValue L pb v).thrown = none ∧
      getValue L name (setValue L pb v).state = .ok (name, v)

mutual
/-- Two object graphs of the same shape between which scalars move without
loss: in every object the names are pairwise distinct and are the same, in the
same order, in both graphs; properties that correspond have the same kind;
scalar arrays have the same element type; object arrays have the same length
and hold no null pointer; and a scalar of the first graph that is read, written
over the scalar of the second and read again gives the same JSON value. -/
def Transferable (L : QVariantLayer V T) : QObject V T → QObject V T → Prop
  | .mk propsA, .mk propsB =>
      (propsA.map Prod.fst).Nodup ∧ transferableProps L propsA propsB
/-- Componentwise `Transferable` on two property lists. -/
def transferableProps (L : QVariantLayer V T) :
    List (String × Property V T) → List (String × Property V T) → Prop
  | [], [] => True
  | (n, pa) :: restA, (m, pb) :: restB =>
      n = m ∧ transferableProperty L pa pb ∧ transferableProps L restA restB
  | _, _ => False
/-- `Transferable` on the values of two properties that correspond. -/
def transferableProperty (L : QVariantLayer V T) : Property V T → Property V T → Prop
  | .simple va, .simple vb =>
      L.fromVariant (L.write vb (L.fromVariant va)) = L.fromVariant va
  | .array A vs, .array B _ =>
      A = B ∧ ∀ v, v ∈ vs → L.fromVariant (L.value A (L.fromVariant v)) = L.fromVariant v
  | .object oa, .object ob => Transferable L oa ob
  | .objectArray osA, .objectArray osB => transferableObjects L osA osB
  | _, _ => False
/-- Componentwise `Transferable` on two object arrays without null pointer. -/
def transferableObjects (L : QVariantLayer V T) :
    List (Option (QObject V T)) → List (Option (QObject V T)) → Prop
  | [], [] => True
  | some oa :: restA, some ob :: restB =>
      Transferable L oa ob ∧ transferableObjects L restA restB
  | _, _ => False
end

/-- The state of the object `oa` can be moved into the object `ob`: both
serialize, and `fillObjectFromJson` on `ob` with the JSON of `oa` succeeds and
leaves an object whose JSON is that of `oa`. -/
def ObjectTransfersTo (L : QVariantLayer V T) (oa ob : QObject V T) : Prop :=
  (∃ jb, getJsonFromObject L ob = .ok jb) ∧
    ∃ j, getJsonFromObject L oa = .ok j ∧
      (fillObjectFromJson L ob (.object j)).thrown = none ∧
      getJsonFromObject L (fillObjectFromJson L ob (.object j)).state = .ok j

/-- A source object with a scalar, a scalar array, a nested object and an
object array. -/
def sourceGraph : QObject JsonValue Unit :=
  .mk [("id", .simple (.number 7)),
       ("tags", .array () [.string "x", .string "y"]),
       ("sub", .object (.mk [("flag", .simple (.bool true))])),
       ("list", .objectArray [some (counter 1), some (counter 2)])]

/-- A target object of the same shape as `sourceGraph`, with other contents. -/
def targetGraph : QObject JsonValue Unit :=
  .mk [("id", .simple .null),
       ("tags", .array () []),
       ("sub", .object (.mk [("flag", .simple (.bool false))])),
       ("list", .objectArray [some (counter 0), some (counter 0)])]

/-- The value layer of skeletons, in which every scalar is the unit value. -/
def shapeLayer : QVariantLayer Unit Unit :=
  ⟨fun _ => .null, fun _ _ => (), fun _ _ => ()⟩

mutual
/-- Property names are pairwise distinct in every object of the graph. -/
def QObject.namesDistinct : QObject V T → Bool
  | .mk props => decide ((props.map Prod.fst).Nodup) && namesDistinctProps props
/-- Names are distinct in every object below the properties of the list. -/
def namesDistinctProps : List (String × Property V T) → Bool
  | [] => true
  | (_, p) :: rest => p.namesDistinct && namesDistinctProps rest
/-- Names are distinct in every object below the property. -/
def Property.namesDistinct : Property V T → Bool
  | .simple _ => true
  | .array _ _ => true
  | .object o => o.namesDistinct
  | .objectArray os => namesDistinctObjects os
/-- Names are distinct in every object of the sequence. -/
def namesDistinctObjects : List (Option (QObject V T)) → Bool
  | [] => true
  | none :: rest => namesDistinctObjects rest
  | some o :: rest => o.namesDistinct && namesDistinctObjects rest
end

/-- A second `setValue` with the same JSON value, on a property below which
names are distinct, succeeds and changes nothing when the first one succeeded. -/
def SetIdempotent (L : QVariantLayer V T) (json : JsonValue) : Prop :=
  ∀ p : Property V T, p.namesDistinct = true → (setValue L p json).thrown = none →
    setValue L (setValue L p json).state json = ⟨(setValue L p json).state, none⟩

/-- An object with the single scalar property `a`, zero. -/
def oneCounter : QObject Nat Unit :=
  .mk [("a", .simple 0)]

/-! ## Helper lemmas -/

theorem getValue_fst (L : QVariantLayer V T) (name : String) (p : Property V T)
    (kv : String × JsonValue) (h : getValue L name p = .ok kv) : kv.1 = name := by
  cases p with
  | simple v =>
      simp only [getValue, QMetaSimpleKeeper.getValue, Except.ok.injEq] at h
      rw [← h]
  | array A vs =>
      simp only [getValue, QMetaArrayKeeper.getValue, Except.ok.injEq] at h
      rw [← h]
  | object o =>
      simp only [getValue] at h
      split at h
      · cases h
      · simp only [Except.ok.injEq] at h
        rw [← h]
  | objectArray os =>
      simp only [getValue] at h
      split at h
      · split at h
        · cases h
        · simp only [Except.ok.injEq] at h
          rw [← h]
      · cases h

theorem set_self_of_getElem? {α : Type} (xs : List α) (i : Nat) (x : α)
    (h : xs[i]? = some x) : xs.set i x = xs := by
  induction xs generalizing i with
  | nil => rfl
  | cons y ys ih =>
      cases i with
      | zero =>
          simp only [List.getElem?_cons_zero, Option.some.injEq] at h
          simp [h]
      | succ i =>
          simp only [List.getElem?_cons_succ] at h
          simp [ih i h]

theorem Frame.refl (key : String) (props : List (String × Property V T)) :
    Frame key props props :=
  ⟨rfl, fun _ _ _ h _ => h⟩

theorem Frame.trans {key : String} {a b c : List (String × Property V T)}
    (h₁ : Frame key a b) (h₂ : Frame key b c) : Frame key a c :=
  ⟨h₂.1.trans h₁.1, fun i name p h hne => h₂.2 i name p (h₁.2 i name p h hne) hne⟩

theorem Frame.set {key : String} {props : List (String × Property V T)} {keeper : Nat}
    {name : String} {p q : Property V T} (h : props[keeper]? = some (name, p))
    (hk : key = name) : Frame key props (props.set keeper (name, q)) := by
  constructor
  · apply List.ext_getElem?
    intro i
    simp only [List.getElem?_map, List.getElem?_set]
    by_cases hi : keeper = i
    · subst hi
      simp only [if_true]
      have hlt : keeper < props.length := by
        rcases Nat.lt_or_ge keeper props.length with hlt | hge
        · exact hlt
        · rw [List.getElem?_eq_none hge] at h
          cases h
      simp [hlt, h]
    · simp [hi]
  · intro i n p' hi hne
    by_cases hik : keeper = i
    · subst hik
      rw [h] at hi
      simp only [Option.some.injEq, Prod.mk.injEq] at hi
      exact absurd (hk ▸ hi.1.symm) hne
    · rw [List.getElem?_set_ne hik]
      exact hi

theorem scanKeepers_frame (L : QVariantLayer V T) (set : Property V T → Result (Property V T))
    (key : String) (before after : List Nat) (props : List (String × Property V T)) :
    Frame key props (scanKeepers L set key before after props).1.state := by
  induction before, after, props using scanKeepers.induct L set key with
  | case1 before props => simp only [scanKeepers]; exact Frame.refl _ _
  | case2 before keeper after props hnone ih =>
      rw [scanKeepers]; simp only [hnone]; exact ih
  | case3 before keeper after props name p hsome e he =>
      rw [scanKeepers]; simp only [hsome, he]; exact Frame.refl _ _
  | case4 before keeper after props name p hsome kv hkv hkey r e he =>
      rw [scanKeepers]; simp only [hsome, hkv, if_pos hkey]
      simp only [r] at he
      simp only [he]
      exact Frame.set hsome (hkey.trans (getValue_fst L name p kv hkv))
  | case5 before keeper props name p hsome kv hkv hkey r he =>
      rw [scanKeepers]; simp only [hsome, hkv, if_pos hkey]
      simp only [r] at he
      simp only [he]
      exact Frame.set hsome (hkey.trans (getValue_fst L name p kv hkv))
  | case6 before keeper props name p hsome kv hkv hkey r props' he skipped after' ih =>
      rw [scanKeepers]; simp only [hsome, hkv, if_pos hkey]
      simp only [r] at he
      simp only [he]
      exact Frame.trans (Frame.set hsome (hkey.trans (getValue_fst L name p kv hkv))) ih
  | case7 before keeper after props name p hsome kv hkv hkey ih =>
      rw [scanKeepers]; simp only [hsome, hkv, if_neg hkey]; exact ih

theorem Frame.eq_of_unmatched {key : String} {props props' : List (String × Property V T)}
    (h : Frame key props props') (hk : key ∉ props.map Prod.fst) : props' = props := by
  apply List.ext_getElem?
  intro i
  cases hi : props[i]? with
  | none =>
      have hlen : props'.length = props.length := by
        simpa using congrArg List.length h.1
      rw [List.getElem?_eq_none_iff] at hi ⊢
      omega
  | some np =>
      obtain ⟨name, p⟩ := np
      apply h.2 i name p hi
      intro hne
      apply hk
      rw [← hne]
      exact List.mem_map.mpr ⟨(name, p), List.getElem?_mem hi, rfl⟩

theorem fillKeys_frame (L : QVariantLayer V T) (members : List (String × JsonValue)) :
    ∀ (metaKeepers : List Nat) (props : List (String × Property V T)),
      (fillKeys L members metaKeepers props).state.map Prod.fst = props.map Prod.fst ∧
      ∀ (i : Nat) (name : String) (p : Property V T), props[i]? = some (name, p) →
        name ∉ qKeys members → (fillKeys L members metaKeepers props).state[i]? = some (name, p) := by
  induction members with
  | nil =>
      intro metaKeepers props
      rw [fillKeys]
      exact ⟨rfl, fun _ _ _ h _ => h⟩
  | cons kv rest ih =>
      obtain ⟨key, val⟩ := kv
      intro metaKeepers props
      have hf := scanKeepers_frame L (fun p => setValue L p val) key [] metaKeepers props
      rw [fillKeys]
      split
      · refine ⟨hf.1, fun i name p hi hn => hf.2 i name p hi ?_⟩
        intro hk
        apply hn
        simp [qKeys, hk]
      · have ih' := ih (scanKeepers L (fun p => setValue L p val) key [] metaKeepers props).2
          (scanKeepers L (fun p => setValue L p val) key [] metaKeepers props).1.state
        refine ⟨ih'.1.trans hf.1, fun i name p hi hn => ?_⟩
        have hne : name ≠ key := by
          intro hk
          apply hn
          simp [qKeys, hk]
        have hrest : name ∉ qKeys rest := by
          intro hk
          apply hn
          simp only [qKeys, List.map_cons, List.mem_cons]
          exact Or.inr hk
        exact ih'.2 i name p (hf.2 i name p hi hne) hrest

theorem scanKeepers_noop (L : QVariantLayer V T) (set : Property V T → Result (Property V T))
    (key : String) (before after : List Nat) (props : List (String × Property V T))
    (hget : ∀ (i : Nat) (n : String) (p : Property V T), props[i]? = some (n, p) →
      ∃ kv, getValue L n p = .ok kv)
    (hset : ∀ (i : Nat) (n : String) (p : Property V T), props[i]? = some (n, p) →
      key = n → set p = ⟨p, none⟩) :
    (scanKeepers L set key before after props).1 = ⟨props, none⟩ := by
  induction before, after, props using scanKeepers.induct L set key with
  | case1 before props => simp only [scanKeepers]
  | case2 before keeper after props hnone ih =>
      rw [scanKeepers]; simp only [hnone]; exact ih hget hset
  | case3 before keeper after props name p hsome e he =>
      obtain ⟨kv, hkv⟩ := hget keeper name p hsome
      rw [he] at hkv
      cases hkv
  | case4 before keeper after props name p hsome kv hkv hkey r e he =>
      have hs := hset keeper name p hsome (hkey.trans (getValue_fst L name p kv hkv))
      simp only [r, hs] at he
      cases he
  | case5 before keeper props name p hsome kv hkv hkey r he =>
      have hs := hset keeper name p hsome (hkey.trans (getValue_fst L name p kv hkv))
      rw [scanKeepers]; simp only [hsome, hkv, if_pos hkey, hs]
      rw [set_self_of_getElem? props keeper (name, p) hsome]
  | case6 before keeper props name p hsome kv hkv hkey r props' he skipped after' ih =>
      have hs := hset keeper name p hsome (hkey.trans (getValue_fst L name p kv hkv))
      have hp : props' = props := by
        simp only [props', r, hs]
        exact set_self_of_getElem? props keeper (name, p) hsome
      rw [scanKeepers]; simp only [hsome, hkv, if_pos hkey, hs]
      rw [hp] at ih
      rw [set_self_of_getElem? props keeper (name, p) hsome]
      exact ih hget hset
  | case7 before keeper after props name p hsome kv hkv hkey ih =>
      rw [scanKeepers]; simp only [hsome, hkv, if_neg hkey]; exact ih hget hset

theorem fillKeys_noop (L : QVariantLayer V T) (props : List (String × Property V T))
    (hget : ∀ (i : Nat) (n : String) (p : Property V T), props[i]? = some (n, p) →
      ∃ kv, getValue L n p = .ok kv)
    (members : List (String × JsonValue)) :
    (∀ kv ∈ members, ∀ (i : Nat) (n : String) (p : Property V T), props[i]? = some (n, p) →
      kv.1 = n → setValue L p kv.2 = ⟨p, none⟩) →
    ∀ metaKeepers : List Nat, fillKeys L members metaKeepers props = ⟨props, none⟩ := by
  induction members with
  | nil => intro _ _; simp only [fillKeys]
  | cons kv rest ih =>
      obtain ⟨key, val⟩ := kv
      intro hset metaKeepers
      have hs := scanKeepers_noop L (fun p => setValue L p val) key [] metaKeepers props hget
        (fun i n p hi hk => hset (key, val) (List.mem_cons_self _ _) i n p hi hk)
      rw [fillKeys]
      simp only [hs]
      exact ih (fun kv hkv => hset kv (List.mem_cons_of_mem _ hkv)) _

/-- `QMetaObjectKeeper::setValue(json)` is `fillObjectFromJson(linkedObj, json)`. -/
theorem setValue_object (L : QVariantLayer V T) (qo : QObject V T) (json : JsonValue) :
    setValue L (.object qo) json =
      ⟨.object (fillObjectFromJson L qo json).state, (fillObjectFromJson L qo json).thrown⟩ := by
  cases qo with
  | mk props => cases json <;> simp only [setValue, fillObjectFromJson]

theorem qInsert_mem (key : String) (value : JsonValue) (members : List (String × JsonValue))
    (x : String × JsonValue) (h : x ∈ qInsert key value members) :
    x = (key, value) ∨ x ∈ members := by
  induction members with
  | nil => simpa [qInsert] using h
  | cons kv rest ih =>
      obtain ⟨k, v⟩ := kv
      simp only [qInsert] at h
      split at h
      · rcases List.mem_cons.mp h with h | h
        · exact Or.inl h
        · exact Or.inr (List.mem_cons_of_mem _ h)
      · split at h
        · rcases List.mem_cons.mp h with h | h
          · exact Or.inl h
          · exact Or.inr h
        · rcases List.mem_cons.mp h with h | h
          · exact Or.inr (h ▸ List.mem_cons_self _ _)
          · rcases ih h with h | h
            · exact Or.inl h
            · exact Or.inr (List.mem_cons_of_mem _ h)

theorem getJsonFromKeepers_mem (L : QVariantLayer V T) (props : List (String × Property V T)) :
    ∀ (json j : List (String × JsonValue)), getJsonFromKeepers L props json = .ok j →
      ∀ x ∈ j, x ∈ json ∨ ∃ n p, (n, p) ∈ props ∧ getValue L n p = .ok x := by
  induction props with
  | nil =>
      intro json j h x hx
      simp only [getJsonFromKeepers, Except.ok.injEq] at h
      exact Or.inl (h ▸ hx)
  | cons np rest ih =>
      obtain ⟨name, p⟩ := np
      intro json j h x hx
      rw [getJsonFromKeepers] at h
      split at h
      · cases h
      · rename_i kv hkv
        rcases ih _ j h x hx with h' | ⟨n, q, hq, hv⟩
        · rcases qInsert_mem _ _ _ _ h' with h'' | h''
          · exact Or.inr ⟨name, p, List.mem_cons_self _ _, h'' ▸ hkv⟩
          · exact Or.inl h''
        · exact Or.inr ⟨n, q, List.mem_cons_of_mem _ hq, hv⟩

theorem getJsonFromKeepers_ok (L : QVariantLayer V T) (props : List (String × Property V T)) :
    (∀ n p, (n, p) ∈ props → ∃ kv, getValue L n p = .ok kv) →
      ∀ json, ∃ j, getJsonFromKeepers L props json = .ok j := by
  induction props with
  | nil => intro _ json; exact ⟨json, by simp only [getJsonFromKeepers]⟩
  | cons np rest ih =>
      obtain ⟨name, p⟩ := np
      intro h json
      obtain ⟨kv, hkv⟩ := h name p (List.mem_cons_self _ _)
      rw [getJsonFromKeepers]
      simp only [hkv]
      exact ih (fun n q hq => h n q (List.mem_cons_of_mem _ hq)) _

theorem eq_of_nodup_fst {α β : Type} (xs : List (α × β)) (h : (xs.map Prod.fst).Nodup)
    (a : α) (b c : β) (hb : (a, b) ∈ xs) (hc : (a, c) ∈ xs) : b = c := by
  induction xs with
  | nil => cases hb
  | cons x rest ih =>
      simp only [List.map_cons, List.nodup_cons, List.mem_map, not_exists, not_and] at h
      rcases List.mem_cons.mp hb with hb | hb <;> rcases List.mem_cons.mp hc with hc | hc
      · rw [← hc] at hb
        exact (Prod.mk.inj hb).2
      · exact absurd (by rw [← hb]) (h.1 (a, c) hc)
      · exact absurd (by rw [← hc]) (h.1 (a, b) hb)
      · exact ih h.2 hb hc

/-- Writing back what was read: when names are distinct and every keeper takes
its own `getValue` as a no-op `setValue`, filling the properties with their
own JSON succeeds and changes nothing. -/
theorem roundtrip_props (L : QVariantLayer V T) (props : List (String × Property V T))
    (hn : (props.map Prod.fst).Nodup)
    (hp : ∀ n p, (n, p) ∈ props →
      ∃ v, getValue L n p = .ok (n, v) ∧ setValue L p v = ⟨p, none⟩) :
    ∃ j, getJsonFromKeepers L props [] = .ok j ∧
      ∀ metaKeepers, fillKeys L j metaKeepers props = ⟨props, none⟩ := by
  obtain ⟨j, hj⟩ := getJsonFromKeepers_ok L props
    (fun n p h => (hp n p h).elim fun v hv => ⟨(n, v), hv.1⟩) []
  refine ⟨j, hj, fillKeys_noop L props ?_ j ?_⟩
  · intro i n p hi
    obtain ⟨v, hv, _⟩ := hp n p (List.getElem?_mem hi)
    exact ⟨(n, v), hv⟩
  · intro kv hkv i n p hi hk
    rcases getJsonFromKeepers_mem L props [] j hj kv hkv with h | ⟨n', p', hmem, hval⟩
    · cases h
    · have hn' : n' = n := (getValue_fst L n' p' kv hval).symm.trans hk
      subst hn'
      have hpp : p' = p := eq_of_nodup_fst props hn n' p' p hmem (List.getElem?_mem hi)
      subst hpp
      obtain ⟨v, hv, hs⟩ := hp n' p' hmem
      rw [hv] at hval
      cases hval
      exact hs

theorem roundtrip_tree (L : QVariantLayer V T) (hL : ∀ v, L.write v (L.fromVariant v) = v)
    (o : QObject V T) :
    o.isScalarObjectTree = true →
      ∃ j, getJsonFromObject L o = .ok j ∧
        fillObjectFromJson L o (.object j) = ⟨o, none⟩ := by
  refine @QObject.rec V T
    (fun o => o.isScalarObjectTree = true →
      ∃ j, getJsonFromObject L o = .ok j ∧ fillObjectFromJson L o (.object j) = ⟨o, none⟩)
    (fun p => p.isScalarObjectTree = true →
      ∀ name, ∃ v, getValue L name p = .ok (name, v) ∧ setValue L p v = ⟨p, none⟩)
    (fun props => isScalarObjectTreeProps props = true →
      ∀ n p, (n, p) ∈ props → ∃ v, getValue L n p = .ok (n, v) ∧ setValue L p v = ⟨p, none⟩)
    (fun _ => True)
    (fun np => np.2.isScalarObjectTree = true →
      ∀ name, ∃ v, getValue L name np.2 = .ok (name, v) ∧ setValue L np.2 v = ⟨np.2, none⟩)
    (fun _ => True) ?_ ?_ ?_ ?_ ?_ ?_ ?_ ?_ ?_ ?_ ?_ ?_ o
  · intro props ih h
    simp only [QObject.isScalarObjectTree, Bool.and_eq_true, decide_eq_true_eq] at h
    obtain ⟨j, hj, hfill⟩ := roundtrip_props L props h.1 (ih h.2)
    refine ⟨j, ?_, ?_⟩
    · rw [getJsonFromObject]; exact hj
    · rw [fillObjectFromJson]; simp only [hfill]
  · intro v _ name
    refine ⟨L.fromVariant v, ?_, ?_⟩
    · simp only [getValue, QMetaSimpleKeeper.getValue]
    · simp only [setValue, QMetaSimpleKeeper.setValue, hL]
  · intro A vs h
    simp [Property.isScalarObjectTree] at h
  · intro o ih h name
    simp only [Property.isScalarObjectTree] at h
    obtain ⟨j, hj, hf⟩ := ih h
    refine ⟨.object j, ?_, ?_⟩
    · simp only [getValue, hj]
    · rw [setValue_object, hf]
  · intro os _ h
    simp [Property.isScalarObjectTree] at h
  · intro _ n p hmem
    cases hmem
  · intro head tail ihh iht h n p hmem
    obtain ⟨hn, hp⟩ := head
    simp only [isScalarObjectTreeProps, Bool.and_eq_true] at h
    rcases List.mem_cons.mp hmem with heq | hmem
    · cases heq
      exact ihh h.1 n
    · exact iht h.2 n p hmem
  · trivial
  · intro _ _ _ _
    trivial
  · intro n p ih h name
    exact ih h name
  · trivial
  · intro _ _
    trivial

theorem fillKeys_unmatched (L : QVariantLayer V T) (members : List (String × JsonValue))
    (metaKeepers : List Nat) (props : List (String × Property V T))
    (hk : ∀ k ∈ qKeys members, k ∉ props.map Prod.fst) :
    (fillKeys L members metaKeepers props).state = props := by
  have hf := fillKeys_frame L members metaKeepers props
  apply List.ext_getElem?
  intro i
  cases hi : props[i]? with
  | none =>
      have hlen : (fillKeys L members metaKeepers props).state.length = props.length := by
        simpa using congrArg List.length hf.1
      rw [List.getElem?_eq_none_iff] at hi ⊢
      omega
  | some np =>
      obtain ⟨name, p⟩ := np
      apply hf.2 i name p hi
      intro hmem
      exact hk name hmem (List.mem_map.mpr ⟨(name, p), List.getElem?_mem hi, rfl⟩)

theorem fillElements_valid (L : QVariantLayer V T) (objects : List (QObject V T)) :
    ∀ jsonArray : List JsonValue,
      (∀ x ∈ List.zip objects jsonArray, (fillObjectFromJson L x.1 x.2).thrown = none) →
      fillElements L jsonArray (objects.map some) =
        ⟨(filledPrefix L objects jsonArray).map some, none⟩ := by
  induction objects with
  | nil =>
      intro jsonArray _
      cases jsonArray <;> simp [fillElements, filledPrefix]
  | cons qo rest ih =>
      intro jsonArray h
      cases jsonArray with
      | nil => simp [fillElements, filledPrefix]
      | cons item items =>
          have h0 : (fillObjectFromJson L qo item).thrown = none :=
            h (qo, item) (by simp)
          have hrest := ih items (fun x hx => h x (by simp [hx]))
          simp only [List.map_cons, fillElements, h0, hrest]
          simp [filledPrefix]

theorem getJsonFromObjects_ok_iff (L : QVariantLayer V T) (os : List (Option (QObject V T))) :
    ∀ js : List JsonValue, getJsonFromObjects L os = .ok js ↔
      ∃ objs jsons, os = objs.map some ∧
        List.Forall₂ (fun qo j => getJsonFromObject L qo = .ok j) objs jsons ∧
        js = jsons.map JsonValue.object := by
  induction os with
  | nil =>
      intro js
      simp only [getJsonFromObjects, Except.ok.injEq]
      constructor
      · intro h
        exact ⟨[], [], rfl, List.Forall₂.nil, h.symm⟩
      · rintro ⟨objs, jsons, hobjs, hall, hjs⟩
        cases objs with
        | nil => cases hall; exact hjs.symm
        | cons _ _ => cases hobjs
  | cons x rest ih =>
      intro js
      cases x with
      | none =>
          simp only [getJsonFromObjects]
          constructor
          · intro h; cases h
          · rintro ⟨objs, jsons, hobjs, _, _⟩
            cases objs with
            | nil => cases hobjs
            | cons _ _ => cases hobjs
      | some qo =>
          rw [getJsonFromObjects]
          constructor
          · intro h
            split at h
            · cases h
            · rename_i j hj
              split at h
              · cases h
              · rename_i js' hjs'
                obtain ⟨objs, jsons, hobjs, hall, hjs⟩ := (ih js').mp hjs'
                simp only [Except.ok.injEq] at h
                refine ⟨qo :: objs, j :: jsons, by rw [hobjs]; rfl,
                  List.Forall₂.cons hj hall, ?_⟩
                rw [← h, hjs]
                rfl
          · rintro ⟨objs, jsons, hobjs, hall, hjs⟩
            cases hall with
            | nil => cases hobjs
            | cons hhead htail =>
                rename_i qo' j objs' jsons'
                simp only [List.map_cons, List.cons.injEq, Option.some.injEq] at hobjs
                obtain ⟨hq, hrest⟩ := hobjs
                subst hq
                have hr := (ih (jsons'.map JsonValue.object)).mpr ⟨objs', jsons', hrest, htail, rfl⟩
                simp only [hhead, hr, hjs, List.map_cons]

theorem qValue_qInsert_self (key : String) (value : JsonValue)
    (members : List (String × JsonValue)) :
    qValue key (qInsert key value members) = some value := by
  induction members with
  | nil => simp [qInsert, qValue]
  | cons kv rest ih =>
      obtain ⟨k, v⟩ := kv
      simp only [qInsert]
      split
      · simp [qValue]
      · split
        · simp [qValue]
        · rename_i hne _
          simp [qValue, hne, ih]

theorem qValue_qInsert_ne (key other : String) (value : JsonValue)
    (members : List (String × JsonValue)) (h : other ≠ key) :
    qValue other (qInsert key value members) = qValue other members := by
  induction members with
  | nil => simp [qInsert, qValue, h]
  | cons kv rest ih =>
      obtain ⟨k, v⟩ := kv
      simp only [qInsert]
      split
      · rename_i hk
        subst hk
        simp [qValue, h]
      · split
        · simp [qValue, h]
        · simp only [qValue, ih]

theorem qKeys_qInsert (key other : String) (value : JsonValue)
    (members : List (String × JsonValue)) :
    other ∈ qKeys (qInsert key value members) ↔ other = key ∨ other ∈ qKeys members := by
  induction members with
  | nil => simp [qInsert, qKeys]
  | cons kv rest ih =>
      obtain ⟨k, v⟩ := kv
      simp only [qInsert]
      split
      · rename_i hk
        subst hk
        simp [qKeys]
      · split
        · simp [qKeys]
        · simp only [qKeys, List.map_cons, List.mem_cons] at ih ⊢
          rw [ih]
          tauto

theorem qInsert_sorted (key : String) (value : JsonValue)
    (members : List (String × JsonValue))
    (h : (qKeys members).Pairwise (fun a b => a.data < b.data)) :
    (qKeys (qInsert key value members)).Pairwise (fun a b => a.data < b.data) := by
  induction members with
  | nil => simp [qInsert, qKeys]
  | cons kv rest ih =>
      obtain ⟨k, v⟩ := kv
      simp only [qKeys, List.map_cons, List.pairwise_cons] at h
      simp only [qInsert]
      split
      · rename_i hk
        subst hk
        simpa [qKeys] using h
      · split
        · rename_i hlt
          simp only [keyLt, decide_eq_true_eq] at hlt
          simp only [qKeys, List.map_cons, List.pairwise_cons, List.mem_cons]
          refine ⟨?_, h⟩
          rintro b (hb | hb)
          · rw [hb]; exact hlt
          · exact lt_trans hlt (h.1 b hb)
        · rename_i hne hlt
          simp only [keyLt, decide_eq_true_eq] at hlt
          have hgt : k.data < key.data :=
            lt_of_le_of_ne (not_lt.mp hlt) (fun hd => hne (String.ext hd).symm)
          simp only [qKeys, List.map_cons, List.pairwise_cons]
          refine ⟨?_, ih h.2⟩
          intro b hb
          rcases (qKeys_qInsert key b value rest).mp hb with hb | hb
          · rw [hb]; exact hgt
          · exact h.1 b hb

theorem getJsonFromKeepers_sorted (L : QVariantLayer V T) (props : List (String × Property V T)) :
    ∀ (json j : List (String × JsonValue)), getJsonFromKeepers L props json = .ok j →
      (qKeys json).Pairwise (fun a b => a.data < b.data) →
      (qKeys j).Pairwise (fun a b => a.data < b.data) := by
  induction props with
  | nil =>
      intro json j h hs
      simp only [getJsonFromKeepers, Except.ok.injEq] at h
      exact h ▸ hs
  | cons np rest ih =>
      obtain ⟨name, p⟩ := np
      intro json j h hs
      rw [getJsonFromKeepers] at h
      split at h
      · cases h
      · exact ih _ j h (qInsert_sorted _ _ _ hs)

theorem getJsonFromKeepers_keys (L : QVariantLayer V T) (props : List (String × Property V T)) :
    ∀ (json j : List (String × JsonValue)), getJsonFromKeepers L props json = .ok j →
      ∀ k, k ∈ qKeys j ↔ k ∈ qKeys json ∨ k ∈ props.map Prod.fst := by
  induction props with
  | nil =>
      intro json j h k
      simp only [getJsonFromKeepers, Except.ok.injEq] at h
      simp [h]
  | cons np rest ih =>
      obtain ⟨name, p⟩ := np
      intro json j h k
      rw [getJsonFromKeepers] at h
      split at h
      · cases h
      · rename_i kv hkv
        rw [ih _ j h k, qKeys_qInsert, getValue_fst L name p kv hkv]
        simp only [List.map_cons, List.mem_cons]
        tauto

theorem getJsonFromKeepers_other (L : QVariantLayer V T) (props : List (String × Property V T)) :
    ∀ (json j : List (String × JsonValue)), getJsonFromKeepers L props json = .ok j →
      ∀ k, k ∉ props.map Prod.fst → qValue k j = qValue k json := by
  induction props with
  | nil =>
      intro json j h k _
      simp only [getJsonFromKeepers, Except.ok.injEq] at h
      rw [h]
  | cons np rest ih =>
      obtain ⟨name, p⟩ := np
      intro json j h k hk
      simp only [List.map_cons, List.mem_cons, not_or] at hk
      rw [getJsonFromKeepers] at h
      split at h
      · cases h
      · rename_i kv hkv
        rw [ih _ j h k hk.2, getValue_fst L name p kv hkv, qValue_qInsert_ne _ _ _ _ hk.1]

theorem getJsonFromKeepers_last (L : QVariantLayer V T) (before : List (String × Property V T))
    (n : String) (p : Property V T) (after : List (String × Property V T))
    (hn : n ∉ after.map Prod.fst) :
    ∀ (json j : List (String × JsonValue)),
      getJsonFromKeepers L (before ++ (n, p) :: after) json = .ok j →
      ∃ v, getValue L n p = .ok (n, v) ∧ qValue n j = some v := by
  induction before with
  | nil =>
      intro json j h
      rw [List.nil_append, getJsonFromKeepers] at h
      split at h
      · cases h
      · rename_i kv hkv
        have hfst := getValue_fst L n p kv hkv
        refine ⟨kv.2, ?_, ?_⟩
        · rw [hkv, ← hfst]
        · rw [getJsonFromKeepers_other L after _ j h n hn, hfst, qValue_qInsert_self]
  | cons np rest ih =>
      obtain ⟨name, q⟩ := np
      intro json j h
      rw [List.cons_append, getJsonFromKeepers] at h
      split at h
      · cases h
      · exact ih _ j h

/-- In a `QJsonObject` (no key twice) the value paired with a key in the member
list is `jsonObject.value(key)`, so that walking the members is walking
`keys()` and looking each key up. -/
theorem qValue_of_mem (members : List (String × JsonValue)) (h : (qKeys members).Nodup)
    (key : String) (value : JsonValue) (hmem : (key, value) ∈ members) :
    qValue key members = some value := by
  induction members with
  | nil => cases hmem
  | cons kv rest ih =>
      obtain ⟨k, v⟩ := kv
      simp only [qKeys, List.map_cons, List.nodup_cons, List.mem_map, not_exists, not_and] at h
      rcases List.mem_cons.mp hmem with heq | hrest
      · cases heq
        simp [qValue]
      · have hne : key ≠ k := fun hk => h.1 (key, value) hrest hk
        simp only [qValue, hne, if_false]
        exact ih h.2 hrest

theorem skeletonProps_eq_map (props : List (String × Property V T)) :
    skeletonProps props = props.map (fun np => (np.1, np.2.skeleton)) := by
  induction props with
  | nil => rfl
  | cons np rest ih =>
      obtain ⟨n, p⟩ := np
      simp only [skeletonProps, List.map_cons, ih]

theorem skeletonObjects_length (os : List (Option (QObject V T))) :
    (skeletonObjects os).length = os.length := by
  induction os with
  | nil => rfl
  | cons x rest ih => cases x <;> simp [skeletonObjects, ih]

theorem skeletonProps_set (props : List (String × Property V T)) (keeper : Nat)
    (name : String) (p q : Property V T) (h : props[keeper]? = some (name, p))
    (hq : q.skeleton = p.skeleton) :
    skeletonProps (props.set keeper (name, q)) = skeletonProps props := by
  rw [skeletonProps_eq_map, skeletonProps_eq_map, List.map_set]
  apply set_self_of_getElem?
  rw [List.getElem?_map, h]
  simp [hq]

theorem scanKeepers_skeleton (L : QVariantLayer V T) (set : Property V T → Result (Property V T))
    (hset : ∀ p, (set p).state.skeleton = p.skeleton)
    (key : String) (before after : List Nat) (props : List (String × Property V T)) :
    skeletonProps (scanKeepers L set key before after props).1.state = skeletonProps props := by
  induction before, after, props using scanKeepers.induct L set key with
  | case1 before props => simp only [scanKeepers]
  | case2 before keeper after props hnone ih =>
      rw [scanKeepers]; simp only [hnone]; exact ih
  | case3 before keeper after props name p hsome e he =>
      rw [scanKeepers]; simp only [hsome, he]
  | case4 before keeper after props name p hsome kv hkv hkey r e he =>
      rw [scanKeepers]; simp only [hsome, hkv, if_pos hkey]
      simp only [r] at he
      simp only [he]
      exact skeletonProps_set props keeper name p _ hsome (hset p)
  | case5 before keeper props name p hsome kv hkv hkey r he =>
      rw [scanKeepers]; simp only [hsome, hkv, if_pos hkey]
      simp only [r] at he
      simp only [he]
      exact skeletonProps_set props keeper name p _ hsome (hset p)
  | case6 before keeper props name p hsome kv hkv hkey r props' he skipped after' ih =>
      rw [scanKeepers]; simp only [hsome, hkv, if_pos hkey]
      simp only [r] at he
      simp only [he]
      exact ih.trans (skeletonProps_set props keeper name p _ hsome (hset p))
  | case7 before keeper after props name p hsome kv hkv hkey ih =>
      rw [scanKeepers]; simp only [hsome, hkv, if_neg hkey]; exact ih

theorem setValue_skeleton_aux (L : QVariantLayer V T) (json : JsonValue)
    (hfill : ∀ qo : QObject V T, (fillObjectFromJson L qo json).state.skeleton = qo.skeleton)
    (helem : ∀ items, json = .array items → ∀ os : List (Option (QObject V T)),
      skeletonObjects (fillElements L items os).state = skeletonObjects os) :
    ∀ p : Property V T, (setValue L p json).state.skeleton = p.skeleton := by
  intro p
  cases p with
  | simple v => simp only [setValue, Property.skeleton]
  | array A vs => simp only [setValue, Property.skeleton]
  | object o =>
      rw [setValue_object]
      simp only [Property.skeleton, hfill o]
  | objectArray os =>
      cases json with
      | array items =>
          simp only [setValue]
          split
          · simp only [Property.skeleton, helem items rfl os]
          · rfl
      | _ => simp only [setValue]

theorem fill_skeleton (L : QVariantLayer V T) (json : JsonValue) :
    (∀ qo : QObject V T, (fillObjectFromJson L qo json).state.skeleton = qo.skeleton) ∧
    (∀ p : Property V T, (setValue L p json).state.skeleton = p.skeleton) := by
  refine @JsonValue.rec
    (fun json => (∀ qo : QObject V T, (fillObjectFromJson L qo json).state.skeleton = qo.skeleton) ∧
      (∀ p : Property V T, (setValue L p json).state.skeleton = p.skeleton))
    (fun items => ∀ os : List (Option (QObject V T)),
      skeletonObjects (fillElements L items os).state = skeletonObjects os)
    (fun members => ∀ (ks : List Nat) (props : List (String × Property V T)),
      skeletonProps (fillKeys L members ks props).state = skeletonProps props)
    (fun kv => ∀ p : Property V T, (setValue L p kv.2).state.skeleton = p.skeleton)
    ?_ ?_ ?_ ?_ ?_ ?_ ?_ ?_ ?_ ?_ ?_ json
  · have h : ∀ qo : QObject V T,
        (fillObjectFromJson L qo .null).state.skeleton = qo.skeleton :=
      fun qo => by cases qo; simp only [fillObjectFromJson]
    exact ⟨h, setValue_skeleton_aux L _ h (fun _ hj => by cases hj)⟩
  · intro b
    have h : ∀ qo : QObject V T,
        (fillObjectFromJson L qo (.bool b)).state.skeleton = qo.skeleton :=
      fun qo => by cases qo; simp only [fillObjectFromJson]
    exact ⟨h, setValue_skeleton_aux L _ h (fun _ hj => by cases hj)⟩
  · intro n
    have h : ∀ qo : QObject V T,
        (fillObjectFromJson L qo (.number n)).state.skeleton = qo.skeleton :=
      fun qo => by cases qo; simp only [fillObjectFromJson]
    exact ⟨h, setValue_skeleton_aux L _ h (fun _ hj => by cases hj)⟩
  · intro s
    have h : ∀ qo : QObject V T,
        (fillObjectFromJson L qo (.string s)).state.skeleton = qo.skeleton :=
      fun qo => by cases qo; simp only [fillObjectFromJson]
    exact ⟨h, setValue_skeleton_aux L _ h (fun _ hj => by cases hj)⟩
  · intro items ih
    have h : ∀ qo : QObject V T,
        (fillObjectFromJson L qo (.array items)).state.skeleton = qo.skeleton :=
      fun qo => by cases qo; simp only [fillObjectFromJson]
    exact ⟨h, setValue_skeleton_aux L _ h (fun _ hj => by cases hj; exact ih)⟩
  · intro members ih
    have h : ∀ qo : QObject V T,
        (fillObjectFromJson L qo (.object members)).state.skeleton = qo.skeleton := by
      intro qo
      cases qo with
      | mk props => simp only [fillObjectFromJson, QObject.skeleton, ih]
    exact ⟨h, setValue_skeleton_aux L _ h (fun _ hj => by cases hj)⟩
  · intro os
    simp only [fillElements]
  · intro head tail ihh iht os
    cases os with
    | nil => simp only [fillElements]
    | cons x rest =>
        cases x with
        | none => cases head <;> simp only [fillElements]
        | some qo =>
            simp only [fillElements]
            split
            · simp only [skeletonObjects, ihh.1 qo]
            · simp only [skeletonObjects, ihh.1 qo, iht rest]
  · intro ks props
    simp only [fillKeys]
  · intro head tail ihh iht ks props
    obtain ⟨key, val⟩ := head
    have hs := scanKeepers_skeleton L (fun p => setValue L p val) ihh key [] ks props
    rw [fillKeys]
    split
    · exact hs
    · exact (iht _ _).trans hs
  · intro key val ih p
    exact ih.2 p

theorem scanKeepers_untouched (L : QVariantLayer V T)
    (set : Property V T → Result (Property V T)) (key : String)
    (before after : List Nat) (props : List (String × Property V T)) :
    ∀ j, j ∉ after → (scanKeepers L set key before after props).1.state[j]? = props[j]? := by
  induction before, after, props using scanKeepers.induct L set key with
  | case1 before props => intro j _; simp only [scanKeepers]
  | case2 before keeper after props hnone ih =>
      intro j hj
      rw [scanKeepers]; simp only [hnone]
      exact ih j (fun h => hj (List.mem_cons_of_mem _ h))
  | case3 before keeper after props name p hsome e he =>
      intro j _
      rw [scanKeepers]; simp only [hsome, he]
  | case4 before keeper after props name p hsome kv hkv hkey r e he =>
      intro j hj
      rw [scanKeepers]; simp only [hsome, hkv, if_pos hkey]
      simp only [r] at he
      simp only [he]
      exact List.getElem?_set_ne (by rintro rfl; exact hj (List.mem_cons_self _ _))
  | case5 before keeper props name p hsome kv hkv hkey r he =>
      intro j hj
      rw [scanKeepers]; simp only [hsome, hkv, if_pos hkey]
      simp only [r] at he
      simp only [he]
      exact List.getElem?_set_ne (by rintro rfl; exact hj (List.mem_cons_self _ _))
  | case6 before keeper props name p hsome kv hkv hkey r props' he skipped after' ih =>
      intro j hj
      rw [scanKeepers]; simp only [hsome, hkv, if_pos hkey]
      simp only [r] at he
      simp only [he]
      have h1 := ih j (fun h => hj (List.mem_cons_of_mem _ (List.mem_cons_of_mem _ h)))
      simp only [props', r] at h1
      rw [h1]
      exact List.getElem?_set_ne (by rintro rfl; exact hj (List.mem_cons_self _ _))
  | case7 before keeper after props name p hsome kv hkv hkey ih =>
      intro j hj
      rw [scanKeepers]; simp only [hsome, hkv, if_neg hkey]
      exact ih j (fun h => hj (List.mem_cons_of_mem _ h))

theorem scanKeepers_sublist (L : QVariantLayer V T)
    (set : Property V T → Result (Property V T)) (key : String)
    (before after : List Nat) (props : List (String × Property V T)) :
    (scanKeepers L set key before after props).2.Sublist (before ++ after) := by
  induction before, after, props using scanKeepers.induct L set key with
  | case1 before props => simp only [scanKeepers, List.append_nil, List.Sublist.refl]
  | case2 before keeper after props hnone ih =>
      rw [scanKeepers]; simp only [hnone]
      simpa using ih
  | case3 before keeper after props name p hsome e he =>
      rw [scanKeepers]; simp only [hsome, he, List.Sublist.refl]
  | case4 before keeper after props name p hsome kv hkv hkey r e he =>
      rw [scanKeepers]; simp only [hsome, hkv, if_pos hkey]
      simp only [r] at he
      simp only [he, List.Sublist.refl]
  | case5 before keeper props name p hsome kv hkv hkey r he =>
      rw [scanKeepers]; simp only [hsome, hkv, if_pos hkey]
      simp only [r] at he
      simp only [he]
      exact List.sublist_append_left _ _
  | case6 before keeper props name p hsome kv hkv hkey r props' he skipped after' ih =>
      rw [scanKeepers]; simp only [hsome, hkv, if_pos hkey]
      simp only [r] at he
      simp only [he]
      refine List.Sublist.trans ih ?_
      simp only [List.append_assoc, List.singleton_append]
      exact List.Sublist.append_left (List.sublist_cons_self _ _) _
  | case7 before keeper after props name p hsome kv hkv hkey ih =>
      rw [scanKeepers]; simp only [hsome, hkv, if_neg hkey]
      simpa using ih

theorem scanKeepers_kept (L : QVariantLayer V T)
    (set : Property V T → Result (Property V T)) (key : String)
    (before after : List Nat) (props : List (String × Property V T)) :
    ∀ j, (j ∈ before ∨ (j ∈ after ∧ (props.map Prod.fst)[j]? ≠ some key)) →
      j ∈ (scanKeepers L set key before after props).2 := by
  induction before, after, props using scanKeepers.induct L set key with
  | case1 before props =>
      intro j hj
      simp only [scanKeepers]
      rcases hj with hj | hj
      · exact hj
      · cases hj.1
  | case2 before keeper after props hnone ih =>
      intro j hj
      rw [scanKeepers]; simp only [hnone]
      apply ih
      rcases hj with hj | ⟨hj, hne⟩
      · exact Or.inl (List.mem_append_left _ hj)
      · rcases List.mem_cons.mp hj with hj | hj
        · exact Or.inl (List.mem_append_right _ (by simp [hj]))
        · exact Or.inr ⟨hj, hne⟩
  | case3 before keeper after props name p hsome e he =>
      intro j hj
      rw [scanKeepers]; simp only [hsome, he]
      rcases hj with hj | hj
      · exact List.mem_append_left _ hj
      · exact List.mem_append_right _ hj.1
  | case4 before keeper after props name p hsome kv hkv hkey r e he =>
      intro j hj
      rw [scanKeepers]; simp only [hsome, hkv, if_pos hkey]
      simp only [r] at he
      simp only [he]
      rcases hj with hj | hj
      · exact List.mem_append_left _ hj
      · exact List.mem_append_right _ hj.1
  | case5 before keeper props name p hsome kv hkv hkey r he =>
      intro j hj
      rw [scanKeepers]; simp only [hsome, hkv, if_pos hkey]
      simp only [r] at he
      simp only [he]
      rcases hj with hj | ⟨hj, hne⟩
      · exact hj
      · exfalso
        apply hne
        rw [List.mem_singleton.mp hj, List.getElem?_map, hsome]
        simp [hkey, getValue_fst L name p kv hkv]
  | case6 before keeper props name p hsome kv hkv hkey r props' he skipped after' ih =>
      intro j hj
      rw [scanKeepers]; simp only [hsome, hkv, if_pos hkey]
      simp only [r] at he
      simp only [he]
      have hnames : props'.map Prod.fst = props.map Prod.fst :=
        (Frame.set hsome (hkey.trans (getValue_fst L name p kv hkv))).1
      have h1 := ih j
      simp only [hnames] at h1
      simp only [props', r] at h1
      apply h1
      rcases hj with hj | ⟨hj, hne⟩
      · exact Or.inl (List.mem_append_left _ hj)
      · rcases List.mem_cons.mp hj with hj | hj
        · exfalso
          apply hne
          rw [hj, List.getElem?_map, hsome]
          simp [hkey, getValue_fst L name p kv hkv]
        · rcases List.mem_cons.mp hj with hj | hj
          · exact Or.inl (List.mem_append_right _ (by simp [hj]))
          · exact Or.inr ⟨hj, hne⟩
  | case7 before keeper after props name p hsome kv hkv hkey ih =>
      intro j hj
      rw [scanKeepers]; simp only [hsome, hkv, if_neg hkey]
      apply ih
      rcases hj with hj | ⟨hj, hne⟩
      · exact Or.inl (List.mem_append_left _ hj)
      · rcases List.mem_cons.mp hj with hj | hj
        · exact Or.inl (List.mem_append_right _ (by simp [hj]))
        · exact Or.inr ⟨hj, hne⟩

theorem scanKeepers_matched (L : QVariantLayer V T)
    (set : Property V T → Result (Property V T)) (key : String)
    (before after : List Nat) (props : List (String × Property V T)) :
    after.Nodup →
    (∀ i j, i ∈ after → j ∈ after → (props.map Prod.fst)[i]? = some key →
      (props.map Prod.fst)[j]? = some key → i = j) →
    (scanKeepers L set key before after props).1.thrown = none →
    ∀ j p, j ∈ after → j ∉ before → props[j]? = some (key, p) →
      (scanKeepers L set key before after props).1.state[j]? = some (key, (set p).state) ∧
      j ∉ (scanKeepers L set key before after props).2 := by
  induction before, after, props using scanKeepers.induct L set key with
  | case1 before props =>
      intro _ _ _ j p hj
      cases hj
  | case2 before keeper after props hnone ih =>
      intro hN hU hok j p hj hjb hp
      rw [scanKeepers] at hok ⊢; simp only [hnone] at hok ⊢
      have hjk : j ≠ keeper := by
        rintro rfl
        rw [hnone] at hp
        cases hp
      have hja : j ∈ after := (List.mem_cons.mp hj).resolve_left hjk
      exact ih (List.nodup_cons.mp hN).2
        (fun a b ha hb => hU a b (List.mem_cons_of_mem _ ha) (List.mem_cons_of_mem _ hb))
        hok j p hja (by simp [hjb, hjk]) hp
  | case3 before keeper after props name p hsome e he =>
      intro _ _ hok
      rw [scanKeepers] at hok; simp only [hsome, he] at hok
      cases hok
  | case4 before keeper after props name p hsome kv hkv hkey r e he =>
      intro _ _ hok
      rw [scanKeepers] at hok; simp only [hsome, hkv, if_pos hkey] at hok
      simp only [r] at he
      simp only [he] at hok
      cases hok
  | case5 before keeper props name p hsome kv hkv hkey r he =>
      intro _ _ _ j q hj hjb hq
      rw [scanKeepers]; simp only [hsome, hkv, if_pos hkey]
      simp only [r] at he
      simp only [he]
      have hjk : j = keeper := List.mem_singleton.mp hj
      subst hjk
      rw [hsome] at hq
      simp only [Option.some.injEq, Prod.mk.injEq] at hq
      obtain ⟨hn, hpq⟩ := hq
      subst hn hpq
      refine ⟨?_, hjb⟩
      have hlt : j < props.length := (List.getElem?_eq_some_iff.mp hsome).1
      simp [List.getElem?_set, hlt]
  | case6 before keeper props name p hsome kv hkv hkey r props' he skipped after' ih =>
      intro hN hU hok j q hj hjb hq
      rw [scanKeepers] at hok ⊢; simp only [hsome, hkv, if_pos hkey] at hok ⊢
      simp only [r] at he
      simp only [he] at hok ⊢
      have hname : name = key := ((getValue_fst L name p kv hkv).symm.trans hkey.symm)
      have hkn : (props.map Prod.fst)[keeper]? = some key := by
        rw [List.getElem?_map, hsome]; simp [hname]
      have hjn : (props.map Prod.fst)[j]? = some key := by
        rw [List.getElem?_map, hq]; rfl
      have hjk : j = keeper := hU j keeper hj (List.mem_cons_self _ _) hjn hkn
      subst hjk
      rw [hsome] at hq
      simp only [Option.some.injEq, Prod.mk.injEq] at hq
      obtain ⟨hn, hpq⟩ := hq
      subst hn hpq
      have hnot : j ∉ skipped :: after' := (List.nodup_cons.mp hN).1
      have hlt : j < props.length := (List.getElem?_eq_some_iff.mp hsome).1
      constructor
      · rw [scanKeepers_untouched L set name (before ++ [skipped]) after' _ j
          (fun h => hnot (List.mem_cons_of_mem _ h))]
        simp [List.getElem?_set, hlt]
      · intro hmem
        have hsub := (scanKeepers_sublist L set name (before ++ [skipped]) after'
          (props.set j (name, (set p).state))).subset hmem
        simp only [List.append_assoc, List.singleton_append, List.mem_append] at hsub
        rcases hsub with h | h
        · exact hjb h
        · exact hnot h
  | case7 before keeper after props name p hsome kv hkv hkey ih =>
      intro hN hU hok j q hj hjb hq
      rw [scanKeepers] at hok ⊢; simp only [hsome, hkv, if_neg hkey] at hok ⊢
      have hjk : j ≠ keeper := by
        rintro rfl
        rw [hsome] at hq
        simp only [Option.some.injEq, Prod.mk.injEq] at hq
        exact hkey ((getValue_fst L name p kv hkv).trans hq.1).symm
      have hja : j ∈ after := (List.mem_cons.mp hj).resolve_left hjk
      exact ih (List.nodup_cons.mp hN).2
        (fun a b ha hb => hU a b (List.mem_cons_of_mem _ ha) (List.mem_cons_of_mem _ hb))
        hok j q hja (by simp [hjb, hjk]) hq

theorem fillKeys_scatter (L : QVariantLayer V T) (members : List (String × JsonValue)) :
    ∀ (ks : List Nat) (props : List (String × Property V T)),
      (props.map Prod.fst).Nodup → ks.Nodup →
      (fillKeys L members ks props).thrown = none →
      ∀ (j : Nat) (n : String) (p : Property V T), props[j]? = some (n, p) →
        (fillKeys L members ks props).state[j]? =
          some (if j ∈ ks then scatterOne L members (n, p) else (n, p)) := by
  induction members with
  | nil =>
      intro ks props _ _ _ j n p hj
      simp only [fillKeys, scatterOne, qValue, ite_self, hj]
  | cons kv rest ih =>
      obtain ⟨key, val⟩ := kv
      intro ks props hnames hks hok j n p hj
      have hfr := scanKeepers_frame L (fun p => setValue L p val) key [] ks props
      have hsub := scanKeepers_sublist L (fun p => setValue L p val) key [] ks props
      rw [List.nil_append] at hsub
      rw [fillKeys] at hok ⊢
      split at hok
      · cases hok
      · rename_i hscan
        have hU : ∀ a b, a ∈ ks → b ∈ ks → (props.map Prod.fst)[a]? = some key →
            (props.map Prod.fst)[b]? = some key → a = b := by
          intro a b _ _ ha hb
          exact List.getElem?_inj (List.getElem?_eq_some_iff.mp ha).1 hnames (ha.trans hb.symm)
        have ih' := ih _ _ (hfr.1 ▸ hnames) (hsub.nodup hks) hok j n
        by_cases hjk : j ∈ ks
        · by_cases hn : n = key
          · subst hn
            obtain ⟨hst, hnot⟩ := scanKeepers_matched L (fun p => setValue L p val) n [] ks
              props hks hU hscan j p hjk (List.not_mem_nil _) hj
            rw [ih' _ hst]
            simp only [hnot, if_false, hjk, if_true, scatterOne, qValue]
          · have hst := hfr.2 j n p hj hn
            have hkept := scanKeepers_kept L (fun p => setValue L p val) key [] ks props j
              (Or.inr ⟨hjk, by rw [List.getElem?_map, hj]; simpa using hn⟩)
            rw [ih' _ hst]
            simp only [hkept, if_true, hjk, scatterOne, qValue, hn, if_false]
        · have hst := (scanKeepers_untouched L (fun p => setValue L p val) key [] ks props
            j hjk).trans hj
          have hnot : j ∉ (scanKeepers L (fun p => setValue L p val) key [] ks props).2 :=
            fun h => hjk (hsub.subset h)
          rw [ih' _ hst]
          simp only [hnot, if_false, hjk]

theorem getJsonFromKeepers_error (L : QVariantLayer V T)
    (before : List (String × Property V T)) (name : String) (p : Property V T)
    (after : List (String × Property V T)) (e : QSException)
    (hb : ∀ x ∈ before, ∃ kv, getValue L x.1 x.2 = .ok kv)
    (he : getValue L name p = .error e) :
    ∀ json, getJsonFromKeepers L (before ++ (name, p) :: after) json = .error e := by
  induction before with
  | nil =>
      intro json
      rw [List.nil_append, getJsonFromKeepers]
      simp only [he]
  | cons np rest ih =>
      obtain ⟨n, q⟩ := np
      intro json
      obtain ⟨kv, hkv⟩ := hb (n, q) (List.mem_cons_self _ _)
      rw [List.cons_append, getJsonFromKeepers]
      simp only [hkv]
      exact ih (fun x hx => hb x (List.mem_cons_of_mem _ hx)) _

theorem getJsonFromObjects_error (L : QVariantLayer V T) (objs : List (QObject V T))
    (o : QObject V T) (rest : List (Option (QObject V T))) (e : QSException)
    (hb : ∀ x ∈ objs, ∃ j, getJsonFromObject L x = .ok j)
    (he : getJsonFromObject L o = .error e) :
    getJsonFromObjects L (objs.map some ++ some o :: rest) = .error e := by
  induction objs with
  | nil =>
      rw [List.map_nil, List.nil_append, getJsonFromObjects]
      simp only [he]
  | cons x xs ih =>
      obtain ⟨j, hj⟩ := hb x (List.mem_cons_self _ _)
      rw [List.map_cons, List.cons_append, getJsonFromObjects]
      simp only [hj, ih (fun y hy => hb y (List.mem_cons_of_mem _ hy))]

theorem firstIsQObject_of_valid (objs : List (QObject V T)) (o : QObject V T)
    (rest : List (Option (QObject V T))) :
    firstIsQObject (objs.map some ++ some o :: rest) = true := by
  cases objs <;> rfl

theorem fillElements_error (L : QVariantLayer V T) (objs : List (QObject V T))
    (o : QObject V T) (rest : List (Option (QObject V T))) (item : JsonValue)
    (more : List JsonValue) (e : QSException)
    (he : (fillObjectFromJson L o item).thrown = some e) :
    ∀ items : List JsonValue, objs.length = items.length →
      (∀ x ∈ List.zip objs items, (fillObjectFromJson L x.1 x.2).thrown = none) →
      (fillElements L (items ++ item :: more) (objs.map some ++ some o :: rest)).thrown
        = some e := by
  induction objs with
  | nil =>
      intro items hlen _
      cases items with
      | nil =>
          simp only [List.nil_append, List.map_nil, fillElements, he]
      | cons _ _ => cases hlen
  | cons x xs ih =>
      intro items hlen hz
      cases items with
      | nil => cases hlen
      | cons i is =>
          have h0 : (fillObjectFromJson L x i).thrown = none := hz (x, i) (by simp)
          simp only [List.cons_append, List.map_cons, fillElements, h0]
          exact ih is (by simpa using hlen) (fun y hy => hz y (by simp [hy]))

theorem ScanCalls.scan_propagates {L : QVariantLayer V T} {key : String} {val : JsonValue}
    {after : List Nat} {props : List (String × Property V T)} {c : Call V T}
    (h : ScanCalls L key val after props c) (e : QSException) (he : c.thrown L = some e) :
    ∀ before, (scanKeepers L (fun p => setValue L p val) key before after props).1.thrown
      = some e := by
  induction h with
  | get hsome =>
      intro before
      simp only [Call.thrown] at he
      rw [scanKeepers]
      simp only [hsome]
      split
      · rename_i e' he'
        rw [he'] at he
        simpa [errorOf] using he
      · rename_i kv hkv
        rw [hkv] at he
        simp [errorOf] at he
  | set hsome hkv hkey =>
      intro before
      simp only [Call.thrown] at he
      rw [scanKeepers]
      simp only [hsome, hkv, if_pos hkey, he]
  | pass hsome hkv hkey _ ih =>
      intro before
      rw [scanKeepers]
      simp only [hsome, hkv, if_neg hkey]
      exact ih he _
  | absent hnone _ ih =>
      intro before
      rw [scanKeepers]
      simp only [hnone]
      exact ih he _
  | past hsome hkv hkey hok _ ih =>
      intro before
      rw [scanKeepers]
      simp only [hsome, hkv, if_pos hkey, hok]
      exact ih he _

theorem FillCalls.fill_propagates {L : QVariantLayer V T} {members : List (String × JsonValue)}
    {ks : List Nat} {props : List (String × Property V T)} {c : Call V T}
    (h : FillCalls L members ks props c) (e : QSException) (he : c.thrown L = some e) :
    (fillKeys L members ks props).thrown = some e := by
  induction h with
  | here hscan =>
      rw [fillKeys]
      simp only [hscan.scan_propagates e he []]
  | later hok _ ih =>
      rw [fillKeys]
      simp only [hok]
      exact ih he

theorem Calls.step_propagates {L : QVariantLayer V T} {parent child : Call V T}
    (h : Calls L parent child) (e : QSException) (he : child.thrown L = some e) :
    parent.thrown L = some e := by
  cases h with
  | toJson_keeper hb =>
      simp only [Call.thrown] at he ⊢
      rw [getJsonFromObject]
      cases hg : getValue L _ _ with
      | error e' =>
          rw [hg] at he
          simp only [errorOf, Option.some.injEq] at he
          subst he
          rw [getJsonFromKeepers_error L _ _ _ _ e' hb hg]
          rfl
      | ok kv =>
          rw [hg] at he
          simp [errorOf] at he
  | get_object =>
      simp only [Call.thrown] at he ⊢
      cases hg : getJsonFromObject L _ with
      | error e' =>
          rw [hg] at he
          simp only [errorOf, Option.some.injEq] at he
          subst he
          simp only [getValue, hg, errorOf]
      | ok j =>
          rw [hg] at he
          simp [errorOf] at he
  | get_element hb =>
      simp only [Call.thrown] at he ⊢
      cases hg : getJsonFromObject L _ with
      | error e' =>
          rw [hg] at he
          simp only [errorOf, Option.some.injEq] at he
          subst he
          simp only [getValue, firstIsQObject_of_valid, if_true,
            getJsonFromObjects_error L _ _ _ e' hb hg, errorOf]
      | ok j =>
          rw [hg] at he
          simp [errorOf] at he
  | fill_keeper hf =>
      simp only [Call.thrown, fillObjectFromJson]
      exact hf.fill_propagates e he
  | set_object =>
      simp only [Call.thrown] at he ⊢
      rw [setValue_object]
      exact he
  | set_element hlen hz =>
      simp only [Call.thrown] at he ⊢
      simp only [setValue, firstIsQObject_of_valid, if_true]
      exact fillElements_error L _ _ _ _ _ e he _ hlen hz

theorem depth_skeleton (o : QObject V T) : o.skeleton.depth = o.depth := by
  refine @QObject.rec V T
    (fun o => o.skeleton.depth = o.depth)
    (fun p => p.skeleton.depth = p.depth)
    (fun props => depthProps (skeletonProps props) = depthProps props)
    (fun os => depthObjects (skeletonObjects os) = depthObjects os)
    (fun np => np.2.skeleton.depth = np.2.depth)
    (fun x => ∀ o, x = some o → o.skeleton.depth = o.depth)
    ?_ ?_ ?_ ?_ ?_ ?_ ?_ ?_ ?_ ?_ ?_ ?_ o
  · intro props ih
    simp only [QObject.skeleton, QObject.depth, ih]
  · intro v
    simp only [Property.skeleton, Property.depth]
  · intro A vs
    simp only [Property.skeleton, Property.depth]
  · intro o ih
    simp only [Property.skeleton, Property.depth, ih]
  · intro os ih
    simp only [Property.skeleton, Property.depth, ih]
  · simp only [skeletonProps, depthProps]
  · intro head tail ihh iht
    obtain ⟨n, p⟩ := head
    simp only [skeletonProps, depthProps, iht]
    rw [ihh]
  · simp only [skeletonObjects, depthObjects]
  · intro head tail ihh iht
    cases head with
    | none => simp only [skeletonObjects, depthObjects, iht]
    | some o => simp only [skeletonObjects, depthObjects, iht, ihh o rfl]
  · intro n p ih
    exact ih
  · intro o h
    cases h
  · intro o ih o' h
    cases h
    exact ih

theorem depthProps_skeleton (props : List (String × Property V T)) :
    depthProps (skeletonProps props) = depthProps props := by
  have h := depth_skeleton (QObject.mk props)
  simpa [QObject.skeleton, QObject.depth] using h

theorem depthProps_of_skeleton_eq {props props' : List (String × Property V T)}
    (h : skeletonProps props' = skeletonProps props) : depthProps props' = depthProps props := by
  rw [← depthProps_skeleton props', h, depthProps_skeleton]

theorem depth_le_depthProps (props : List (String × Property V T)) :
    ∀ (i : Nat) (name : String) (p : Property V T), props[i]? = some (name, p) →
      p.depth ≤ depthProps props := by
  induction props with
  | nil => intro i name p h; simp at h
  | cons np rest ih =>
      obtain ⟨n, q⟩ := np
      intro i name p h
      cases i with
      | zero =>
          simp only [List.getElem?_cons_zero, Option.some.injEq, Prod.mk.injEq] at h
          simp only [depthProps, ← h.2]
          exact Nat.le_max_left _ _
      | succ i =>
          simp only [List.getElem?_cons_succ] at h
          simp only [depthProps]
          exact Nat.le_trans (ih i name p h) (Nat.le_max_right _ _)

theorem depth_le_depthProps_append (before after : List (String × Property V T))
    (name : String) (p : Property V T) :
    p.depth ≤ depthProps (before ++ (name, p) :: after) := by
  apply depth_le_depthProps _ before.length name p
  rw [List.getElem?_append_right (Nat.le_refl _)]
  simp

theorem depth_le_depthObjects (objs : List (QObject V T)) (o : QObject V T)
    (rest : List (Option (QObject V T))) :
    o.depth ≤ depthObjects (objs.map some ++ some o :: rest) := by
  induction objs with
  | nil => simp only [List.map_nil, List.nil_append, depthObjects]; exact Nat.le_max_left _ _
  | cons x xs ih =>
      simp only [List.map_cons, List.cons_append, depthObjects]
      exact Nat.le_trans ih (Nat.le_max_right _ _)

theorem ScanCalls.scan_rank_le {L : QVariantLayer V T} {key : String} {val : JsonValue}
    {after : List Nat} {props : List (String × Property V T)} {c : Call V T}
    (h : ScanCalls L key val after props c) : c.rank ≤ 2 * depthProps props + 1 := by
  induction h with
  | get hsome =>
      have := depth_le_depthProps _ _ _ _ hsome
      simp only [Call.rank]
      omega
  | set hsome _ _ =>
      have := depth_le_depthProps _ _ _ _ hsome
      simp only [Call.rank]
      omega
  | pass _ _ _ _ ih => exact ih
  | absent _ _ ih => exact ih
  | @past keeper skipped after props name p kv c hsome _ _ _ _ ih =>
      have hsk := skeletonProps_set props keeper name p (setValue L p val).state hsome
        ((fill_skeleton L val).2 p)
      rw [depthProps_of_skeleton_eq hsk] at ih
      exact ih

theorem FillCalls.fill_rank_le {L : QVariantLayer V T} {members : List (String × JsonValue)}
    {ks : List Nat} {props : List (String × Property V T)} {c : Call V T}
    (h : FillCalls L members ks props c) : c.rank ≤ 2 * depthProps props + 1 := by
  induction h with
  | here hscan => exact hscan.scan_rank_le
  | @later key val rest ks props c _ _ ih =>
      have hsk := scanKeepers_skeleton L (fun p => setValue L p val)
        (fun p => (fill_skeleton L val).2 p) key [] ks props
      rw [depthProps_of_skeleton_eq hsk] at ih
      exact ih

theorem Calls.rank_lt {L : QVariantLayer V T} {parent child : Call V T}
    (h : Calls L parent child) : child.rank < parent.rank := by
  cases h with
  | @toJson_keeper before after name p _ =>
      have := depth_le_depthProps_append before after name p
      simp only [Call.rank, QObject.depth]
      omega
  | get_object => simp only [Call.rank, Property.depth]; omega
  | @get_element name objs o rest _ =>
      have := depth_le_depthObjects objs o rest
      simp only [Call.rank, Property.depth]
      omega
  | fill_keeper hf =>
      have := hf.fill_rank_le
      simp only [Call.rank, QObject.depth] at this ⊢
      omega
  | set_object => simp only [Call.rank, Property.depth]; omega
  | @set_element objs o rest items more item _ _ =>
      have := depth_le_depthObjects objs o rest
      simp only [Call.rank, Property.depth]
      omega

theorem getJsonFromObjectRun_eq (L : QVariantLayer V T) (o : QObject V T) :
    getJsonFromObjectRun L o = (o, getJsonFromObject L o) := by
  refine @QObject.rec V T
    (fun o => getJsonFromObjectRun L o = (o, getJsonFromObject L o))
    (fun p => ∀ name, getValueRun L name p = (p, getValue L name p))
    (fun props => ∀ json, getJsonFromKeepersRun L props json =
      (props, getJsonFromKeepers L props json))
    (fun os => getJsonFromObjectsRun L os = (os, getJsonFromObjects L os))
    (fun np => ∀ name, getValueRun L name np.2 = (np.2, getValue L name np.2))
    (fun x => ∀ o, x = some o → getJsonFromObjectRun L o = (o, getJsonFromObject L o))
    ?_ ?_ ?_ ?_ ?_ ?_ ?_ ?_ ?_ ?_ ?_ ?_ o
  · intro props ih
    simp only [getJsonFromObjectRun, getJsonFromObject, ih]
  · intro v name
    simp only [getValueRun, getValue]
  · intro A vs name
    simp only [getValueRun, getValue]
  · intro o ih name
    simp only [getValueRun, getValue, ih]
    cases getJsonFromObject L o <;> rfl
  · intro os ih name
    simp only [getValueRun, getValue, ih]
    split
    · cases getJsonFromObjects L os <;> rfl
    · rfl
  · intro json
    simp only [getJsonFromKeepersRun, getJsonFromKeepers]
  · intro head tail ihh iht json
    obtain ⟨n, p⟩ := head
    simp only [getJsonFromKeepersRun, getJsonFromKeepers, ihh n]
    cases getValue L n p with
    | error e => rfl
    | ok kv => simp only [iht]
  · simp only [getJsonFromObjectsRun, getJsonFromObjects]
  · intro head tail ihh iht
    cases head with
    | none => simp only [getJsonFromObjectsRun, getJsonFromObjects]
    | some qo =>
        simp only [getJsonFromObjectsRun, getJsonFromObjects, ihh qo rfl, iht]
        cases getJsonFromObject L qo with
        | error e => rfl
        | ok j => cases getJsonFromObjects L tail <;> rfl
  · intro n p ih name
    exact ih name
  · intro o h
    cases h
  · intro o ih o' h
    cases h
    exact ih

theorem getValueRun_eq (L : QVariantLayer V T) (name : String) (p : Property V T) :
    getValueRun L name p = (p, getValue L name p) := by
  cases p with
  | simple v => simp only [getValueRun, getValue]
  | array A vs => simp only [getValueRun, getValue]
  | object o =>
      simp only [getValueRun, getValue, getJsonFromObjectRun_eq]
      cases getJsonFromObject L o <;> rfl
  | objectArray os =>
      have hos : getJsonFromObjectsRun L os = (os, getJsonFromObjects L os) := by
        induction os with
        | nil => simp only [getJsonFromObjectsRun, getJsonFromObjects]
        | cons x rest ih =>
            cases x with
            | none => simp only [getJsonFromObjectsRun, getJsonFromObjects]
            | some qo =>
                simp only [getJsonFromObjectsRun, getJsonFromObjects,
                  getJsonFromObjectRun_eq, ih]
                cases getJsonFromObject L qo with
                | error e => rfl
                | ok j => cases getJsonFromObjects L rest <;> rfl
      simp only [getValueRun, getValue, hos]
      split
      · cases getJsonFromObjects L os <;> rfl
      · rfl

theorem scanKeepers_reads_only (L : QVariantLayer V T)
    (set : Property V T → Result (Property V T)) (hset : ∀ p, (set p).state = p)
    (key : String) (before after : List Nat) (props : List (String × Property V T)) :
    (scanKeepers L set key before after props).1.state = props := by
  induction before, after, props using scanKeepers.induct L set key with
  | case1 before props => simp only [scanKeepers]
  | case2 before keeper after props hnone ih =>
      rw [scanKeepers]; simp only [hnone]; exact ih
  | case3 before keeper after props name p hsome e he =>
      rw [scanKeepers]; simp only [hsome, he]
  | case4 before keeper after props name p hsome kv hkv hkey r e he =>
      rw [scanKeepers]; simp only [hsome, hkv, if_pos hkey]
      simp only [r] at he
      simp only [he, hset]
      exact set_self_of_getElem? props keeper (name, p) hsome
  | case5 before keeper props name p hsome kv hkv hkey r he =>
      rw [scanKeepers]; simp only [hsome, hkv, if_pos hkey]
      simp only [r] at he
      simp only [he, hset]
      exact set_self_of_getElem? props keeper (name, p) hsome
  | case6 before keeper props name p hsome kv hkv hkey r props' he skipped after' ih =>
      have hp : props' = props := by
        simp only [props', r, hset]
        exact set_self_of_getElem? props keeper (name, p) hsome
      rw [scanKeepers]; simp only [hsome, hkv, if_pos hkey]
      simp only [r] at he
      simp only [he, hset]
      rw [hp] at ih
      rw [set_self_of_getElem? props keeper (name, p) hsome]
      exact ih
  | case7 before keeper after props name p hsome kv hkv hkey ih =>
      rw [scanKeepers]; simp only [hsome, hkv, if_neg hkey]; exact ih

theorem scanKeepers_ok (L : QVariantLayer V T)
    (set : Property V T → Result (Property V T)) (key : String)
    (before after : List Nat) (props : List (String × Property V T)) :
    after.Nodup →
    (∀ j, j ∈ after → ∀ (n : String) (p : Property V T), props[j]? = some (n, p) →
      (∃ kv, getValue L n p = .ok kv) ∧ (n = key → (set p).thrown = none)) →
    (scanKeepers L set key before after props).1.thrown = none := by
  induction before, after, props using scanKeepers.induct L set key with
  | case1 before props => intro _ _; simp only [scanKeepers]
  | case2 before keeper after props hnone ih =>
      intro hN h
      rw [scanKeepers]; simp only [hnone]
      exact ih (List.nodup_cons.mp hN).2 (fun j hj => h j (List.mem_cons_of_mem _ hj))
  | case3 before keeper after props name p hsome e he =>
      intro _ h
      obtain ⟨kv, hkv⟩ := (h keeper (List.mem_cons_self _ _) name p hsome).1
      rw [he] at hkv
      cases hkv
  | case4 before keeper after props name p hsome kv hkv hkey r e he =>
      intro _ h
      have hs := (h keeper (List.mem_cons_self _ _) name p hsome).2
        ((getValue_fst L name p kv hkv).symm.trans hkey.symm)
      simp only [r, hs] at he
      cases he
  | case5 before keeper props name p hsome kv hkv hkey r he =>
      intro _ _
      rw [scanKeepers]; simp only [hsome, hkv, if_pos hkey]
      simp only [r] at he
      simp only [he]
  | case6 before keeper props name p hsome kv hkv hkey r props' he skipped after' ih =>
      intro hN h
      rw [scanKeepers]; simp only [hsome, hkv, if_pos hkey]
      simp only [r] at he
      simp only [he]
      have hN' := (List.nodup_cons.mp hN)
      apply ih (List.nodup_cons.mp hN'.2).2
      intro j hj n q hq
      have hjk : keeper ≠ j := by
        rintro rfl
        exact hN'.1 (List.mem_cons_of_mem _ hj)
      simp only [props', r] at hq
      rw [List.getElem?_set_ne hjk] at hq
      exact h j (List.mem_cons_of_mem _ (List.mem_cons_of_mem _ hj)) n q hq
  | case7 before keeper after props name p hsome kv hkv hkey ih =>
      intro hN h
      rw [scanKeepers]; simp only [hsome, hkv, if_neg hkey]
      exact ih (List.nodup_cons.mp hN).2 (fun j hj => h j (List.mem_cons_of_mem _ hj))

theorem getElem?_of_map_fst_eq {α β : Type} {xs ys : List (α × β)}
    (h : ys.map Prod.fst = xs.map Prod.fst) (j : Nat) (n : α) (q : β)
    (hj : ys[j]? = some (n, q)) : ∃ p, xs[j]? = some (n, p) := by
  have h1 := congrArg (fun l => l[j]?) h
  simp only [List.getElem?_map, hj, Option.map_some'] at h1
  cases hx : xs[j]? with
  | none => simp [hx] at h1
  | some x =>
      obtain ⟨m, p⟩ := x
      simp only [hx, Option.map_some', Option.some.injEq] at h1
      exact ⟨p, by rw [h1]⟩

theorem fillKeys_ok (L : QVariantLayer V T) (members : List (String × JsonValue)) :
    ∀ (ks : List Nat) (props : List (String × Property V T)),
      (props.map Prod.fst).Nodup → ks.Nodup →
      (∀ (j : Nat) (n : String) (p : Property V T), props[j]? = some (n, p) →
        ∃ kv, getValue L n p = .ok kv) →
      (∀ j, j ∈ ks → ∀ (n : String) (p : Property V T), props[j]? = some (n, p) →
        ∀ v, qValue n members = some v →
          (setValue L p v).thrown = none ∧
          ∃ kv, getValue L n (setValue L p v).state = .ok kv) →
      (fillKeys L members ks props).thrown = none := by
  induction members with
  | nil => intro ks props _ _ _ _; simp only [fillKeys]
  | cons kv rest ih =>
      obtain ⟨key, val⟩ := kv
      intro ks props hnames hks hG hS
      have hfr := scanKeepers_frame L (fun p => setValue L p val) key [] ks props
      have hsub := scanKeepers_sublist L (fun p => setValue L p val) key [] ks props
      rw [List.nil_append] at hsub
      have hU : ∀ a b, a ∈ ks → b ∈ ks → (props.map Prod.fst)[a]? = some key →
          (props.map Prod.fst)[b]? = some key → a = b := by
        intro a b _ _ ha hb
        exact List.getElem?_inj (List.getElem?_eq_some_iff.mp ha).1 hnames (ha.trans hb.symm)
      have hscan : (scanKeepers L (fun p => setValue L p val) key [] ks props).1.thrown
          = none := by
        apply scanKeepers_ok L _ key [] ks props hks
        intro j hj n p hp
        refine ⟨hG j n p hp, fun hn => ?_⟩
        exact (hS j hj n p hp val (by simp [qValue, hn])).1
      rw [fillKeys]
      simp only [hscan]
      apply ih _ _ (hfr.1 ▸ hnames) (hsub.nodup hks)
      · intro j n p1 hp1
        obtain ⟨p, hp⟩ := getElem?_of_map_fst_eq hfr.1 j n p1 hp1
        by_cases hm : j ∈ ks ∧ n = key
        · obtain ⟨hjk, hn⟩ := hm
          subst hn
          have hst := (scanKeepers_matched L (fun p => setValue L p val) n [] ks props hks hU
            hscan j p hjk (List.not_mem_nil _) hp).1
          rw [hst] at hp1
          simp only [Option.some.injEq, Prod.mk.injEq, true_and] at hp1
          rw [← hp1]
          exact (hS j hjk n p hp val (by simp [qValue])).2
        · have hsame : (scanKeepers L (fun p => setValue L p val) key [] ks props).1.state[j]?
              = some (n, p) := by
            by_cases hjk : j ∈ ks
            · exact hfr.2 j n p hp (fun hn => hm ⟨hjk, hn⟩)
            · exact (scanKeepers_untouched L _ key [] ks props j hjk).trans hp
          rw [hsame] at hp1
          simp only [Option.some.injEq, Prod.mk.injEq, true_and] at hp1
          rw [← hp1]
          exact hG j n p hp
      · intro j hj1 n p1 hp1 v hv
        have hjk : j ∈ ks := hsub.subset hj1
        obtain ⟨p, hp⟩ := getElem?_of_map_fst_eq hfr.1 j n p1 hp1
        have hn : n ≠ key := by
          rintro rfl
          exact (scanKeepers_matched L (fun p => setValue L p val) n [] ks props hks hU
            hscan j p hjk (List.not_mem_nil _) hp).2 hj1
        have hsame := hfr.2 j n p hp hn
        rw [hsame] at hp1
        simp only [Option.some.injEq, Prod.mk.injEq, true_and] at hp1
        rw [← hp1]
        exact hS j hjk n p hp v (by simpa [qValue, hn] using hv)

theorem fillKeys_eq_scatter (L : QVariantLayer V T) (props : List (String × Property V T))
    (jsonObject : List (String × JsonValue)) (hn : (props.map Prod.fst).Nodup)
    (hok : (fillKeys L jsonObject (getMetaKeepers props) props).thrown = none) :
    fillKeys L jsonObject (getMetaKeepers props) props = ⟨scatter L jsonObject props, none⟩ := by
  have hspec := fillKeys_scatter L jsonObject (getMetaKeepers props) props hn
    (by simpa [getMetaKeepers] using List.nodup_range props.length) hok
  have hnames := (fillKeys_frame L jsonObject (getMetaKeepers props) props).1
  have hstate : (fillKeys L jsonObject (getMetaKeepers props) props).state
      = scatter L jsonObject props := by
    apply List.ext_getElem?
    intro j
    cases hj : props[j]? with
    | none =>
        have hlen : (fillKeys L jsonObject (getMetaKeepers props) props).state.length
            = props.length := by
          simpa using congrArg List.length hnames
        have hge := List.getElem?_eq_none_iff.mp hj
        rw [List.getElem?_eq_none (by omega), List.getElem?_eq_none (by simp [scatter]; omega)]
    | some np =>
        obtain ⟨n, p⟩ := np
        have hmem : j ∈ getMetaKeepers props := by
          simp only [getMetaKeepers, List.mem_range]
          exact (List.getElem?_eq_some_iff.mp hj).1
        rw [hspec j n p hj, if_pos hmem]
        simp only [scatter, List.getElem?_map, hj, Option.map_some']
  cases hr : fillKeys L jsonObject (getMetaKeepers props) props with
  | mk st th =>
      rw [hr] at hok hstate
      simp only at hok hstate
      rw [hok, hstate]

theorem qValue_of_prop (L : QVariantLayer V T) (props : List (String × Property V T))
    (hn : (props.map Prod.fst).Nodup) (j : List (String × JsonValue))
    (hj : getJsonFromKeepers L props [] = .ok j) (n : String) (p : Property V T)
    (hmem : (n, p) ∈ props) :
    ∃ v, getValue L n p = .ok (n, v) ∧ qValue n j = some v := by
  obtain ⟨before, after, hsplit⟩ := List.append_of_mem hmem
  refine getJsonFromKeepers_last L before n p after ?_ [] j (hsplit ▸ hj)
  rw [hsplit, List.map_append, List.map_cons, List.nodup_append] at hn
  exact (List.nodup_cons.mp hn.2.1).1

theorem getJsonFromKeepers_congr (L : QVariantLayer V T)
    (props props' : List (String × Property V T))
    (h : List.Forall₂ (fun x y => getValue L x.1 x.2 = getValue L y.1 y.2) props props') :
    ∀ json, getJsonFromKeepers L props json = getJsonFromKeepers L props' json := by
  induction h with
  | nil => intro json; rfl
  | @cons x y xs ys hxy _ ih =>
      obtain ⟨n, p⟩ := x
      obtain ⟨m, q⟩ := y
      intro json
      simp only at hxy
      simp only [getJsonFromKeepers, hxy]
      cases getValue L m q with
      | error e => rfl
      | ok kv => exact ih _

theorem forall₂_getElem? {α β : Type} {R : α → β → Prop} {xs : List α} {ys : List β}
    (h : List.Forall₂ R xs ys) :
    ∀ (i : Nat) (y : β), ys[i]? = some y → ∃ x, xs[i]? = some x ∧ R x y := by
  induction h with
  | nil => intro i y hy; simp at hy
  | @cons x y xs ys hxy _ ih =>
      intro i y' hy
      cases i with
      | zero =>
          simp only [List.getElem?_cons_zero, Option.some.injEq] at hy
          exact ⟨x, by simp, hy ▸ hxy⟩
      | succ i =>
          simp only [List.getElem?_cons_succ] at hy ⊢
          exact ih i y' hy

theorem forall₂_imp_mem {α β : Type} {R R' : α → β → Prop} {xs : List α} {ys : List β}
    (h : List.Forall₂ R xs ys) (himp : ∀ x y, x ∈ xs → R x y → R' x y) :
    List.Forall₂ R' xs ys := by
  induction h with
  | nil => exact List.Forall₂.nil
  | @cons x y xs ys hxy _ ih =>
      exact List.Forall₂.cons (himp x y (List.mem_cons_self _ _) hxy)
        (ih (fun a b ha hab => himp a b (List.mem_cons_of_mem _ ha) hab))

theorem forall₂_map_fst {β : Type} {R : β → β → Prop}
    {xs ys : List (String × β)}
    (h : List.Forall₂ (fun x y => x.1 = y.1 ∧ R x.2 y.2) xs ys) :
    ys.map Prod.fst = xs.map Prod.fst := by
  induction h with
  | nil => rfl
  | cons hxy _ ih => simp only [List.map_cons, ih, hxy.1]

theorem transfer_props (L : QVariantLayer V T) (propsA propsB : List (String × Property V T))
    (hn : (propsA.map Prod.fst).Nodup)
    (hR : List.Forall₂ (fun x y => x.1 = y.1 ∧ TransfersTo L x.2 y.2) propsA propsB) :
    (∃ jb, getJsonFromKeepers L propsB [] = .ok jb) ∧
    ∃ j, getJsonFromKeepers L propsA [] = .ok j ∧
      fillKeys L j (getMetaKeepers propsB) propsB = ⟨scatter L j propsB, none⟩ ∧
      getJsonFromKeepers L (scatter L j propsB) [] = .ok j := by
  have hnames := forall₂_map_fst hR
  have hnB : (propsB.map Prod.fst).Nodup := hnames ▸ hn
  have hgetA : ∀ n p, (n, p) ∈ propsA → ∃ kv, getValue L n p = .ok kv := by
    intro n p hmem
    obtain ⟨i, hi⟩ := List.getElem?_of_mem hmem
    obtain ⟨y, _, hxy⟩ := forall₂_getElem? hR.flip i (n, p) hi
    obtain ⟨v, hv, _⟩ := (hxy.2 n).2
    exact ⟨_, hv⟩
  have hgetB : ∀ (i : Nat) (n : String) (p : Property V T), propsB[i]? = some (n, p) →
      ∃ kv, getValue L n p = .ok kv := by
    intro i n p hi
    obtain ⟨x, _, hxy⟩ := forall₂_getElem? hR i (n, p) hi
    exact (hxy.2 n).1
  obtain ⟨j, hj⟩ := getJsonFromKeepers_ok L propsA hgetA []
  have hval : ∀ (i : Nat) (n : String) (pb : Property V T), propsB[i]? = some (n, pb) →
      ∃ v, qValue n j = some v ∧ (setValue L pb v).thrown = none ∧
        getValue L n (setValue L pb v).state = .ok (n, v) := by
    intro i n pb hi
    obtain ⟨x, hx, hxy⟩ := forall₂_getElem? hR i (n, pb) hi
    obtain ⟨m, pa⟩ := x
    obtain ⟨hm, ht⟩ := hxy
    simp only at hm ht
    subst hm
    obtain ⟨v, hv, hq⟩ := qValue_of_prop L propsA hn j hj m pa (List.getElem?_mem hx)
    obtain ⟨v', hv', hs, hg⟩ := (ht m).2
    rw [hv] at hv'
    simp only [Except.ok.injEq, Prod.mk.injEq, true_and] at hv'
    subst hv'
    exact ⟨v, hq, hs, hg⟩
  have hok : (fillKeys L j (getMetaKeepers propsB) propsB).thrown = none := by
    apply fillKeys_ok L j _ _ hnB
      (by simpa [getMetaKeepers] using List.nodup_range propsB.length) hgetB
    intro i _ n pb hi v hv
    obtain ⟨v', hq, hs, hg⟩ := hval i n pb hi
    rw [hq] at hv
    simp only [Option.some.injEq] at hv
    subst hv
    exact ⟨hs, _, hg⟩
  refine ⟨getJsonFromKeepers_ok L propsB
    (fun n p hmem => (List.getElem?_of_mem hmem).elim fun i hi => hgetB i n p hi) [],
    j, hj, fillKeys_eq_scatter L propsB j hnB hok, ?_⟩
  rw [← hj]
  symm
  apply getJsonFromKeepers_congr
  simp only [scatter, List.forall₂_map_right_iff]
  refine forall₂_imp_mem hR ?_
  rintro ⟨n, pa⟩ ⟨m, pb⟩ hmem ⟨hm, ht⟩
  simp only at hm ht
  subst hm
  obtain ⟨v, hv, hq⟩ := qValue_of_prop L propsA hn j hj n pa hmem
  obtain ⟨v', hv', _, hg⟩ := (ht n).2
  rw [hv] at hv'
  simp only [Except.ok.injEq, Prod.mk.injEq, true_and] at hv'
  subst hv'
  simp only [scatterOne, hq, hv, hg]

theorem transfer_tree (L : QVariantLayer V T) (oa : QObject V T) :
    ∀ ob, Transferable L oa ob → ObjectTransfersTo L oa ob := by
  refine @QObject.rec V T
    (fun oa => ∀ ob, Transferable L oa ob → ObjectTransfersTo L oa ob)
    (fun pa => ∀ pb, transferableProperty L pa pb → TransfersTo L pa pb)
    (fun propsA => ∀ propsB, transferableProps L propsA propsB →
      List.Forall₂ (fun x y => x.1 = y.1 ∧ TransfersTo L x.2 y.2) propsA propsB)
    (fun osA => ∀ osB, transferableObjects L osA osB →
      firstIsQObject osA = true ∧ firstIsQObject osB = true ∧
      (∃ jsB, getJsonFromObjects L osB = .ok jsB) ∧
      ∃ js, getJsonFromObjects L osA = .ok js ∧
        (fillElements L js osB).thrown = none ∧
        getJsonFromObjects L (fillElements L js osB).state = .ok js ∧
        firstIsQObject (fillElements L js osB).state = true)
    (fun np => ∀ pb, transferableProperty L np.2 pb → TransfersTo L np.2 pb)
    (fun x => ∀ oa, x = some oa → ∀ ob, Transferable L oa ob → ObjectTransfersTo L oa ob)
    ?_ ?_ ?_ ?_ ?_ ?_ ?_ ?_ ?_ ?_ ?_ ?_ oa
  · intro propsA ih ob h
    cases ob with
    | mk propsB =>
      simp only [Transferable] at h
      obtain ⟨⟨jb, hjb⟩, j, hj, hfill, hback⟩ := transfer_props L propsA propsB h.1 (ih propsB h.2)
      refine ⟨⟨jb, by rw [getJsonFromObject]; exact hjb⟩, j,
        by rw [getJsonFromObject]; exact hj, ?_, ?_⟩
      · rw [fillObjectFromJson]; simp only [hfill]
      · rw [fillObjectFromJson]; simp only [hfill]
        rw [getJsonFromObject]; exact hback
  · intro va pb h name
    cases pb with
    | simple vb =>
        simp only [transferableProperty] at h
        refine ⟨⟨_, by simp only [getValue]; rfl⟩, L.fromVariant va, ?_, ?_, ?_⟩
        · simp only [getValue, QMetaSimpleKeeper.getValue]
        · simp only [setValue]
        · simp only [setValue, getValue, QMetaSimpleKeeper.getValue,
            QMetaSimpleKeeper.setValue, h]
    | array _ _ => simp only [transferableProperty] at h
    | object _ => simp only [transferableProperty] at h
    | objectArray _ => simp only [transferableProperty] at h
  · intro A vs pb h name
    cases pb with
    | simple _ => simp only [transferableProperty] at h
    | array B ws =>
        simp only [transferableProperty] at h
        obtain ⟨hAB, hv⟩ := h
        subst hAB
        have hmap : List.map L.fromVariant (List.map (L.value A) (List.map L.fromVariant vs))
            = List.map L.fromVariant vs := by
          rw [List.map_map, List.map_map]
          exact List.map_congr_left (fun v hmem => by simpa using hv v hmem)
        refine ⟨⟨_, by simp only [getValue]; rfl⟩, .array (vs.map L.fromVariant), ?_, ?_, ?_⟩
        · simp only [getValue, QMetaArrayKeeper.getValue]
        · simp only [setValue, QMetaArrayKeeper.setValue]
        · simp only [setValue, QMetaArrayKeeper.setValue, getValue, QMetaArrayKeeper.getValue,
            hmap]
    | object _ => simp only [transferableProperty] at h
    | objectArray _ => simp only [transferableProperty] at h
  · intro oa ih pb h name
    cases pb with
    | simple _ => simp only [transferableProperty] at h
    | array _ _ => simp only [transferableProperty] at h
    | object ob =>
        simp only [transferableProperty] at h
        obtain ⟨⟨jb, hjb⟩, j, hj, hfill, hback⟩ := ih ob h
        refine ⟨⟨_, by simp only [getValue, hjb]; rfl⟩, .object j, ?_, ?_, ?_⟩
        · simp only [getValue, hj]
        · rw [setValue_object]; exact hfill
        · rw [setValue_object]; simp only [getValue, hback]
    | objectArray _ => simp only [transferableProperty] at h
  · intro osA ih pb h name
    cases pb with
    | simple _ => simp only [transferableProperty] at h
    | array _ _ => simp only [transferableProperty] at h
    | object _ => simp only [transferableProperty] at h
    | objectArray osB =>
        simp only [transferableProperty] at h
        obtain ⟨hfa, hfb, ⟨jsB, hjsB⟩, js, hjs, hfill, hback, hfr⟩ := ih osB h
        refine ⟨⟨_, by simp only [getValue, hfb, if_true, hjsB]; rfl⟩, .array js, ?_, ?_, ?_⟩
        · simp only [getValue, hfa, if_true, hjs]
        · simp only [setValue, hfb, if_true, hfill]
        · simp only [setValue, hfb, if_true, getValue, hfr, hback]
  · intro propsB h
    cases propsB with
    | nil => exact List.Forall₂.nil
    | cons _ _ => simp only [transferableProps] at h
  · intro head tail ihh iht propsB h
    obtain ⟨n, pa⟩ := head
    cases propsB with
    | nil => simp only [transferableProps] at h
    | cons y restB =>
        obtain ⟨m, pb⟩ := y
        simp only [transferableProps] at h
        exact List.Forall₂.cons ⟨h.1, ihh pb h.2.1⟩ (iht restB h.2.2)
  · intro osB h
    cases osB with
    | nil =>
        refine ⟨rfl, rfl, ⟨[], by simp only [getJsonFromObjects]⟩, [], ?_, ?_, ?_, ?_⟩
          <;> simp only [getJsonFromObjects, fillElements, firstIsQObject]
    | cons _ _ => simp only [transferableObjects] at h
  · intro head tail ihh iht osB h
    cases head with
    | none => cases osB <;> simp only [transferableObjects] at h
    | some oa =>
        cases osB with
        | nil => simp only [transferableObjects] at h
        | cons y restB =>
            cases y with
            | none => simp only [transferableObjects] at h
            | some ob =>
                simp only [transferableObjects] at h
                obtain ⟨⟨jb, hjb⟩, j, hj, hfill, hback⟩ := ihh oa rfl ob h.1
                obtain ⟨_, _, ⟨jsB, hjsB⟩, js, hjs, hfills, hbacks, _⟩ := iht restB h.2
                refine ⟨rfl, rfl, ⟨.object jb :: jsB, by simp only [getJsonFromObjects, hjb, hjsB]⟩,
                  .object j :: js, ?_, ?_, ?_, ?_⟩
                · simp only [getJsonFromObjects, hj, hjs]
                · simp only [fillElements, hfill, hfills]
                · simp only [fillElements, hfill, getJsonFromObjects, hback, hbacks]
                · simp only [fillElements, hfill, firstIsQObject]
  · intro n p ih pb h
    exact ih pb h
  · intro oa h
    cases h
  · intro o ih oa h
    cases h
    exact ih

theorem errorOf_eq_none {α : Type} {x : Except QSException α} :
    errorOf x = none ↔ ∃ v, x = .ok v := by
  cases x with
  | error e => simp [errorOf]
  | ok v => simp [errorOf]

theorem errorOf_eq_some {α : Type} {x : Except QSException α} {e : QSException} :
    errorOf x = some e ↔ x = .error e := by
  cases x with
  | error e' => simp [errorOf]
  | ok v => simp [errorOf]

theorem errorOf_skeleton (L : QVariantLayer V T) (o : QObject V T) :
    errorOf (getJsonFromObject L o) = errorOf (getJsonFromObject shapeLayer o.skeleton) := by
  refine @QObject.rec V T
    (fun o => errorOf (getJsonFromObject L o) =
      errorOf (getJsonFromObject shapeLayer o.skeleton))
    (fun p => ∀ name, errorOf (getValue L name p) =
      errorOf (getValue shapeLayer name p.skeleton))
    (fun props => ∀ json json', errorOf (getJsonFromKeepers L props json) =
      errorOf (getJsonFromKeepers shapeLayer (skeletonProps props) json'))
    (fun os => errorOf (getJsonFromObjects L os) =
        errorOf (getJsonFromObjects shapeLayer (skeletonObjects os)) ∧
      firstIsQObject (skeletonObjects os) = firstIsQObject os)
    (fun np => ∀ name, errorOf (getValue L name np.2) =
      errorOf (getValue shapeLayer name np.2.skeleton))
    (fun x => ∀ o, x = some o → errorOf (getJsonFromObject L o) =
      errorOf (getJsonFromObject shapeLayer o.skeleton))
    ?_ ?_ ?_ ?_ ?_ ?_ ?_ ?_ ?_ ?_ ?_ ?_ o
  · intro props ih
    simp only [getJsonFromObject, QObject.skeleton]
    exact ih [] []
  · intro v name
    simp only [getValue, Property.skeleton, errorOf]
  · intro A vs name
    simp only [getValue, Property.skeleton, errorOf]
  · intro o ih name
    simp only [getValue, Property.skeleton]
    cases h1 : getJsonFromObject L o with
    | error e =>
        rw [h1] at ih
        have h2 := errorOf_eq_some.mp ih.symm
        simp only [h2, errorOf]
    | ok j =>
        rw [h1] at ih
        obtain ⟨j', h2⟩ := errorOf_eq_none.mp ih.symm
        simp only [h2, errorOf]
  · intro os ih name
    simp only [getValue, Property.skeleton, ih.2]
    split
    · cases h1 : getJsonFromObjects L os with
      | error e =>
          have ih1 := ih.1
          rw [h1] at ih1
          have h2 := errorOf_eq_some.mp ih1.symm
          simp only [h2, errorOf]
      | ok j =>
          have ih1 := ih.1
          rw [h1] at ih1
          obtain ⟨j', h2⟩ := errorOf_eq_none.mp ih1.symm
          simp only [h2, errorOf]
    · rfl
  · intro json json'
    simp only [getJsonFromKeepers, skeletonProps, errorOf]
  · intro head tail ihh iht json json'
    obtain ⟨n, p⟩ := head
    have ih1 := ihh n
    simp only [getJsonFromKeepers, skeletonProps]
    cases h1 : getValue L n p with
    | error e =>
        rw [h1] at ih1
        have h2 := errorOf_eq_some.mp ih1.symm
        simp only [h2, errorOf]
    | ok kv =>
        rw [h1] at ih1
        obtain ⟨kv', h2⟩ := errorOf_eq_none.mp ih1.symm
        simp only [h2]
        exact iht _ _
  · simp only [getJsonFromObjects, skeletonObjects, errorOf, firstIsQObject, and_self]
  · intro head tail ihh iht
    cases head with
    | none => simp only [getJsonFromObjects, skeletonObjects, errorOf, firstIsQObject, and_self]
    | some qo =>
        have ih1 := ihh qo rfl
        refine ⟨?_, by simp only [skeletonObjects, firstIsQObject]⟩
        simp only [getJsonFromObjects, skeletonObjects]
        cases h1 : getJsonFromObject L qo with
        | error e =>
            rw [h1] at ih1
            have h2 := errorOf_eq_some.mp ih1.symm
            simp only [h2, errorOf]
        | ok j =>
            rw [h1] at ih1
            obtain ⟨j', h2⟩ := errorOf_eq_none.mp ih1.symm
            simp only [h2]
            cases h3 : getJsonFromObjects L tail with
            | error e =>
                have ih2 := iht.1
                rw [h3] at ih2
                have h4 := errorOf_eq_some.mp ih2.symm
                simp only [h4, errorOf]
            | ok js =>
                have ih2 := iht.1
                rw [h3] at ih2
                obtain ⟨js', h4⟩ := errorOf_eq_none.mp ih2.symm
                simp only [h4, errorOf]
  · intro n p ih name
    exact ih name
  · intro o h
    cases h
  · intro o ih o' h
    cases h
    exact ih

theorem errorOf_objects_skeleton (L : QVariantLayer V T) (os : List (Option (QObject V T))) :
    errorOf (getJsonFromObjects L os) =
        errorOf (getJsonFromObjects shapeLayer (skeletonObjects os)) ∧
      firstIsQObject (skeletonObjects os) = firstIsQObject os := by
  induction os with
  | nil => simp only [getJsonFromObjects, skeletonObjects, errorOf, firstIsQObject, and_self]
  | cons head tail iht =>
      cases head with
      | none =>
          simp only [getJsonFromObjects, skeletonObjects, errorOf, firstIsQObject, and_self]
      | some qo =>
          have ih1 := errorOf_skeleton L qo
          refine ⟨?_, by simp only [skeletonObjects, firstIsQObject]⟩
          simp only [getJsonFromObjects, skeletonObjects]
          cases h1 : getJsonFromObject L qo with
          | error e =>
              rw [h1] at ih1
              have h2 := errorOf_eq_some.mp ih1.symm
              simp only [h2, errorOf]
          | ok j =>
              rw [h1] at ih1
              obtain ⟨j', h2⟩ := errorOf_eq_none.mp ih1.symm
              simp only [h2]
              cases h3 : getJsonFromObjects L tail with
              | error e =>
                  have ih2 := iht.1
                  rw [h3] at ih2
                  have h4 := errorOf_eq_some.mp ih2.symm
                  simp only [h4, errorOf]
              | ok js =>
                  have ih2 := iht.1
                  rw [h3] at ih2
                  obtain ⟨js', h4⟩ := errorOf_eq_none.mp ih2.symm
                  simp only [h4, errorOf]

theorem errorOf_getValue_skeleton (L : QVariantLayer V T) (name : String)
    (p : Property V T) :
    errorOf (getValue L name p) = errorOf (getValue shapeLayer name p.skeleton) := by
  cases p with
  | simple v => simp only [getValue, Property.skeleton, errorOf]
  | array A vs => simp only [getValue, Property.skeleton, errorOf]
  | object o =>
      have ih := errorOf_skeleton L o
      simp only [getValue, Property.skeleton]
      cases h1 : getJsonFromObject L o with
      | error e =>
          rw [h1] at ih
          have h2 := errorOf_eq_some.mp ih.symm
          simp only [h2, errorOf]
      | ok j =>
          rw [h1] at ih
          obtain ⟨j', h2⟩ := errorOf_eq_none.mp ih.symm
          simp only [h2, errorOf]
  | objectArray os =>
      have ih := errorOf_objects_skeleton L os
      simp only [getValue, Property.skeleton, ih.2]
      split
      · cases h1 : getJsonFromObjects L os with
        | error e =>
            have ih1 := ih.1
            rw [h1] at ih1
            have h2 := errorOf_eq_some.mp ih1.symm
            simp only [h2, errorOf]
        | ok j =>
            have ih1 := ih.1
            rw [h1] at ih1
            obtain ⟨j', h2⟩ := errorOf_eq_none.mp ih1.symm
            simp only [h2, errorOf]
      · rfl

theorem getValue_ok_of_skeleton_eq (L : QVariantLayer V T) (name : String)
    (p q : Property V T) (h : q.skeleton = p.skeleton)
    (hp : ∃ kv, getValue L name p = .ok kv) : ∃ kv, getValue L name q = .ok kv := by
  apply errorOf_eq_none.mp
  rw [errorOf_getValue_skeleton, h, ← errorOf_getValue_skeleton]
  exact errorOf_eq_none.mpr hp

theorem namesDistinct_skeleton (o : QObject V T) :
    o.skeleton.namesDistinct = o.namesDistinct := by
  refine @QObject.rec V T
    (fun o => o.skeleton.namesDistinct = o.namesDistinct)
    (fun p => p.skeleton.namesDistinct = p.namesDistinct)
    (fun props => namesDistinctProps (skeletonProps props) = namesDistinctProps props)
    (fun os => namesDistinctObjects (skeletonObjects os) = namesDistinctObjects os)
    (fun np => np.2.skeleton.namesDistinct = np.2.namesDistinct)
    (fun x => ∀ o, x = some o → o.skeleton.namesDistinct = o.namesDistinct)
    ?_ ?_ ?_ ?_ ?_ ?_ ?_ ?_ ?_ ?_ ?_ ?_ o
  · intro props ih
    have hmap : (skeletonProps props).map Prod.fst = props.map Prod.fst := by
      rw [skeletonProps_eq_map, List.map_map]
      rfl
    simp only [QObject.skeleton, QObject.namesDistinct, ih, hmap]
  · intro v
    simp only [Property.skeleton, Property.namesDistinct]
  · intro A vs
    simp only [Property.skeleton, Property.namesDistinct]
  · intro o ih
    simp only [Property.skeleton, Property.namesDistinct, ih]
  · intro os ih
    simp only [Property.skeleton, Property.namesDistinct, ih]
  · simp only [skeletonProps, namesDistinctProps]
  · intro head tail ihh iht
    obtain ⟨n, p⟩ := head
    simp only [skeletonProps, namesDistinctProps, iht]
    rw [ihh]
  · simp only [skeletonObjects, namesDistinctObjects]
  · intro head tail ihh iht
    cases head with
    | none => simp only [skeletonObjects, namesDistinctObjects, iht]
    | some o => simp only [skeletonObjects, namesDistinctObjects, iht, ihh o rfl]
  · intro n p ih
    exact ih
  · intro o h
    cases h
  · intro o ih o' h
    cases h
    exact ih

theorem namesDistinct_of_skeleton_eq {o o' : QObject V T} (h : o'.skeleton = o.skeleton) :
    o'.namesDistinct = o.namesDistinct := by
  rw [← namesDistinct_skeleton o', h, namesDistinct_skeleton]

theorem namesDistinctObjects_skeleton (os : List (Option (QObject V T))) :
    namesDistinctObjects (skeletonObjects os) = namesDistinctObjects os := by
  induction os with
  | nil => rfl
  | cons x rest ih =>
      cases x with
      | none => simp only [skeletonObjects, namesDistinctObjects, ih]
      | some o =>
          simp only [skeletonObjects, namesDistinctObjects, ih, namesDistinct_skeleton]

theorem propertyNamesDistinct_skeleton (p : Property V T) :
    p.skeleton.namesDistinct = p.namesDistinct := by
  cases p with
  | simple v => rfl
  | array A vs => rfl
  | object o =>
      simp only [Property.skeleton, Property.namesDistinct,
        QJsonMarshaler.namesDistinct_skeleton]
  | objectArray os =>
      simp only [Property.skeleton, Property.namesDistinct, namesDistinctObjects_skeleton]

theorem propertyNamesDistinct_of_skeleton_eq {p q : Property V T}
    (h : q.skeleton = p.skeleton) : q.namesDistinct = p.namesDistinct := by
  rw [← propertyNamesDistinct_skeleton q, h, propertyNamesDistinct_skeleton]

theorem namesDistinctProps_skeleton (props : List (String × Property V T)) :
    namesDistinctProps (skeletonProps props) = namesDistinctProps props := by
  induction props with
  | nil => rfl
  | cons np rest ih =>
      obtain ⟨n, p⟩ := np
      simp only [skeletonProps, namesDistinctProps, ih, propertyNamesDistinct_skeleton]

theorem namesDistinctProps_of_skeleton_eq {props props' : List (String × Property V T)}
    (h : skeletonProps props' = skeletonProps props) :
    namesDistinctProps props' = namesDistinctProps props := by
  rw [← namesDistinctProps_skeleton props', h, namesDistinctProps_skeleton]

theorem namesDistinctObjects_of_skeleton_eq {os os' : List (Option (QObject V T))}
    (h : skeletonObjects os' = skeletonObjects os) :
    namesDistinctObjects os' = namesDistinctObjects os := by
  rw [← namesDistinctObjects_skeleton os', h, namesDistinctObjects_skeleton]

theorem namesDistinct_getElem? (props : List (String × Property V T))
    (h : namesDistinctProps props = true) :
    ∀ (i : Nat) (n : String) (p : Property V T), props[i]? = some (n, p) →
      p.namesDistinct = true := by
  induction props with
  | nil => intro i n p hi; simp at hi
  | cons np rest ih =>
      obtain ⟨m, q⟩ := np
      simp only [namesDistinctProps, Bool.and_eq_true] at h
      intro i n p hi
      cases i with
      | zero =>
          simp only [List.getElem?_cons_zero, Option.some.injEq, Prod.mk.injEq] at hi
          rw [← hi.2]
          exact h.1
      | succ i =>
          simp only [List.getElem?_cons_succ] at hi
          exact ih h.2 i n p hi

theorem fillKeys_skeleton (L : QVariantLayer V T) (members : List (String × JsonValue)) :
    ∀ (ks : List Nat) (props : List (String × Property V T)),
      skeletonProps (fillKeys L members ks props).state = skeletonProps props := by
  induction members with
  | nil => intro ks props; simp only [fillKeys]
  | cons kv rest ih =>
      obtain ⟨key, val⟩ := kv
      intro ks props
      have hs := scanKeepers_skeleton L (fun p => setValue L p val)
        (fun p => (fill_skeleton L val).2 p) key [] ks props
      rw [fillKeys]
      split
      · exact hs
      · exact (ih _ _).trans hs

theorem fillElements_skeleton (L : QVariantLayer V T) (items : List JsonValue) :
    ∀ os : List (Option (QObject V T)),
      skeletonObjects (fillElements L items os).state = skeletonObjects os := by
  induction items with
  | nil => intro os; simp only [fillElements]
  | cons head tail iht =>
      intro os
      cases os with
      | nil => simp only [fillElements]
      | cons x rest =>
          cases x with
          | none => cases head <;> simp only [fillElements]
          | some qo =>
              simp only [fillElements]
              split
              · simp only [skeletonObjects, (fill_skeleton L head).1 qo]
              · simp only [skeletonObjects, (fill_skeleton L head).1 qo, iht rest]

theorem skeleton_getElem? {props props' : List (String × Property V T)}
    (h : skeletonProps props' = skeletonProps props) (i : Nat) (n : String)
    (p : Property V T) (hp : props[i]? = some (n, p)) :
    ∃ q, props'[i]? = some (n, q) ∧ q.skeleton = p.skeleton := by
  rw [skeletonProps_eq_map, skeletonProps_eq_map] at h
  have h1 := congrArg (fun l => l[i]?) h
  simp only [List.getElem?_map, hp, Option.map_some'] at h1
  cases hq : props'[i]? with
  | none => simp [hq] at h1
  | some x =>
      obtain ⟨m, q⟩ := x
      simp only [hq, Option.map_some', Option.some.injEq, Prod.mk.injEq] at h1
      exact ⟨q, by rw [h1.1], h1.2⟩

theorem fillKeys_untouched (L : QVariantLayer V T) (members : List (String × JsonValue)) :
    ∀ (ks : List Nat) (props : List (String × Property V T)) (j : Nat), j ∉ ks →
      (fillKeys L members ks props).state[j]? = props[j]? := by
  induction members with
  | nil => intro ks props j _; simp only [fillKeys]
  | cons kv rest ih =>
      obtain ⟨key, val⟩ := kv
      intro ks props j hj
      have hu := scanKeepers_untouched L (fun p => setValue L p val) key [] ks props j hj
      have hsub := scanKeepers_sublist L (fun p => setValue L p val) key [] ks props
      rw [List.nil_append] at hsub
      rw [fillKeys]
      split
      · exact hu
      · exact (ih _ _ j (fun h => hj (hsub.subset h))).trans hu

theorem scanKeepers_matched_thrown (L : QVariantLayer V T)
    (set : Property V T → Result (Property V T)) (key : String)
    (before after : List Nat) (props : List (String × Property V T)) :
    after.Nodup →
    (∀ i j, i ∈ after → j ∈ after → (props.map Prod.fst)[i]? = some key →
      (props.map Prod.fst)[j]? = some key → i = j) →
    (scanKeepers L set key before after props).1.thrown = none →
    ∀ j p, j ∈ after → props[j]? = some (key, p) → (set p).thrown = none := by
  induction before, after, props using scanKeepers.induct L set key with
  | case1 before props =>
      intro _ _ _ j p hj
      cases hj
  | case2 before keeper after props hnone ih =>
      intro hN hU hok j p hj hp
      rw [scanKeepers] at hok; simp only [hnone] at hok
      have hjk : j ≠ keeper := by
        rintro rfl
        rw [hnone] at hp
        cases hp
      exact ih (List.nodup_cons.mp hN).2
        (fun a b ha hb => hU a b (List.mem_cons_of_mem _ ha) (List.mem_cons_of_mem _ hb))
        hok j p ((List.mem_cons.mp hj).resolve_left hjk) hp
  | case3 before keeper after props name p hsome e he =>
      intro _ _ hok
      rw [scanKeepers] at hok; simp only [hsome, he] at hok
      cases hok
  | case4 before keeper after props name p hsome kv hkv hkey r e he =>
      intro _ _ hok
      rw [scanKeepers] at hok; simp only [hsome, hkv, if_pos hkey] at hok
      simp only [r] at he
      simp only [he] at hok
      cases hok
  | case5 before keeper props name p hsome kv hkv hkey r he =>
      intro _ _ _ j q hj hq
      have hjk : j = keeper := List.mem_singleton.mp hj
      subst hjk
      rw [hsome] at hq
      simp only [Option.some.injEq, Prod.mk.injEq] at hq
      rw [← hq.2]
      exact he
  | case6 before keeper props name p hsome kv hkv hkey r props' he skipped after' ih =>
      intro hN hU _ j q hj hq
      have hname : name = key := ((getValue_fst L name p kv hkv).symm.trans hkey.symm)
      have hkn : (props.map Prod.fst)[keeper]? = some key := by
        rw [List.getElem?_map, hsome]; simp [hname]
      have hjn : (props.map Prod.fst)[j]? = some key := by
        rw [List.getElem?_map, hq]; rfl
      have hjk : j = keeper := hU j keeper hj (List.mem_cons_self _ _) hjn hkn
      subst hjk
      rw [hsome] at hq
      simp only [Option.some.injEq, Prod.mk.injEq] at hq
      rw [← hq.2]
      exact he
  | case7 before keeper after props name p hsome kv hkv hkey ih =>
      intro hN hU hok j q hj hq
      rw [scanKeepers] at hok; simp only [hsome, hkv, if_neg hkey] at hok
      have hjk : j ≠ keeper := by
        rintro rfl
        rw [hsome] at hq
        simp only [Option.some.injEq, Prod.mk.injEq] at hq
        exact hkey ((getValue_fst L name p kv hkv).trans hq.1).symm
      exact ih (List.nodup_cons.mp hN).2
        (fun a b ha hb => hU a b (List.mem_cons_of_mem _ ha) (List.mem_cons_of_mem _ hb))
        hok j q ((List.mem_cons.mp hj).resolve_left hjk) hq

theorem scanKeepers_replay (L : QVariantLayer V T)
    (set : Property V T → Result (Property V T)) (key : String)
    (before after : List Nat) (props : List (String × Property V T)) :
    after.Nodup →
    (scanKeepers L set key before after props).1.thrown = none →
    ∀ F : List (String × Property V T), F.map Prod.fst = props.map Prod.fst →
      (∀ j, j ∈ after → ∀ (n : String) (p q : Property V T), props[j]? = some (n, p) →
        F[j]? = some (n, q) → (∃ kv, getValue L n p = .ok kv) →
        ∃ kv, getValue L n q = .ok kv) →
      (∀ j, j ∈ after → ∀ q : Property V T, F[j]? = some (key, q) → set q = ⟨q, none⟩) →
      scanKeepers L set key before after F =
        (⟨F, none⟩, (scanKeepers L set key before after props).2) := by
  induction before, after, props using scanKeepers.induct L set key with
  | case1 before props =>
      intro _ _ F _ _ _
      simp only [scanKeepers]
  | case2 before keeper after props hnone ih =>
      intro hN hok F hnames hG hH
      have hFnone : F[keeper]? = none := by
        have hlen : F.length = props.length := by
          simpa using congrArg List.length hnames
        rw [List.getElem?_eq_none_iff] at hnone ⊢
        omega
      have hrun : scanKeepers L set key before (keeper :: after) props =
          scanKeepers L set key (before ++ [keeper]) after props := by
        rw [scanKeepers]; simp only [hnone]
      rw [hrun] at hok ⊢
      rw [scanKeepers]; simp only [hFnone]
      exact ih (List.nodup_cons.mp hN).2 hok F hnames
        (fun j hj => hG j (List.mem_cons_of_mem _ hj))
        (fun j hj => hH j (List.mem_cons_of_mem _ hj))
  | case3 before keeper after props name p hsome e he =>
      intro _ hok
      rw [scanKeepers] at hok; simp only [hsome, he] at hok
      cases hok
  | case4 before keeper after props name p hsome kv hkv hkey r e he =>
      intro _ hok
      rw [scanKeepers] at hok; simp only [hsome, hkv, if_pos hkey] at hok
      simp only [r] at he
      simp only [he] at hok
      cases hok
  | case5 before keeper props name p hsome kv hkv hkey r he =>
      intro _ _ F hnames hG hH
      obtain ⟨q, hq⟩ := getElem?_of_map_fst_eq hnames.symm keeper name p hsome
      obtain ⟨kv', hkv'⟩ := hG keeper (List.mem_cons_self _ _) name p q hsome hq ⟨kv, hkv⟩
      have hname : name = key := (getValue_fst L name p kv hkv).symm.trans hkey.symm
      have hkey' : key = kv'.1 := hname.symm.trans (getValue_fst L name q kv' hkv').symm
      have hset := hH keeper (List.mem_cons_self _ _) q (hname ▸ hq)
      have hrun : scanKeepers L set key before [keeper] props =
          (⟨props.set keeper (name, (set p).state), none⟩, before) := by
        rw [scanKeepers]; simp only [hsome, hkv, if_pos hkey]
        simp only [r] at he
        simp only [he]
      rw [hrun]
      rw [scanKeepers]; simp only [hq, hkv', if_pos hkey', hset]
      rw [set_self_of_getElem? F keeper (name, q) hq]
  | case6 before keeper props name p hsome kv hkv hkey r props' he skipped after' ih =>
      intro hN hok F hnames hG hH
      obtain ⟨q, hq⟩ := getElem?_of_map_fst_eq hnames.symm keeper name p hsome
      obtain ⟨kv', hkv'⟩ := hG keeper (List.mem_cons_self _ _) name p q hsome hq ⟨kv, hkv⟩
      have hname : name = key := (getValue_fst L name p kv hkv).symm.trans hkey.symm
      have hkey' : key = kv'.1 := hname.symm.trans (getValue_fst L name q kv' hkv').symm
      have hset := hH keeper (List.mem_cons_self _ _) q (hname ▸ hq)
      have hrun : scanKeepers L set key before (keeper :: skipped :: after') props =
          scanKeepers L set key (before ++ [skipped]) after' props' := by
        rw [scanKeepers]; simp only [hsome, hkv, if_pos hkey]
        simp only [r] at he
        simp only [he]
      rw [hrun] at hok ⊢
      rw [scanKeepers]; simp only [hq, hkv', if_pos hkey', hset]
      rw [set_self_of_getElem? F keeper (name, q) hq]
      have hN' := List.nodup_cons.mp hN
      have hnames' : F.map Prod.fst = props'.map Prod.fst :=
        hnames.trans (Frame.set hsome (hname.symm)).1.symm
      apply ih (List.nodup_cons.mp hN'.2).2 hok F hnames'
      · intro j hj n p1 q1 hp1 hq1 hget
        have hjk : keeper ≠ j := by
          rintro rfl
          exact hN'.1 (List.mem_cons_of_mem _ hj)
        simp only [props', r] at hp1
        rw [List.getElem?_set_ne hjk] at hp1
        exact hG j (List.mem_cons_of_mem _ (List.mem_cons_of_mem _ hj)) n p1 q1 hp1 hq1 hget
      · intro j hj
        exact hH j (List.mem_cons_of_mem _ (List.mem_cons_of_mem _ hj))
  | case7 before keeper after props name p hsome kv hkv hkey ih =>
      intro hN hok F hnames hG hH
      obtain ⟨q, hq⟩ := getElem?_of_map_fst_eq hnames.symm keeper name p hsome
      obtain ⟨kv', hkv'⟩ := hG keeper (List.mem_cons_self _ _) name p q hsome hq ⟨kv, hkv⟩
      have hkey' : ¬ key = kv'.1 := by
        rw [getValue_fst L name q kv' hkv', ← getValue_fst L name p kv hkv]
        exact hkey
      have hrun : scanKeepers L set key before (keeper :: after) props =
          scanKeepers L set key (before ++ [keeper]) after props := by
        rw [scanKeepers]; simp only [hsome, hkv, if_neg hkey]
      rw [hrun] at hok ⊢
      rw [scanKeepers]; simp only [hq, hkv', if_neg hkey']
      exact ih (List.nodup_cons.mp hN).2 hok F hnames
        (fun j hj => hG j (List.mem_cons_of_mem _ hj))
        (fun j hj => hH j (List.mem_cons_of_mem _ hj))

theorem fillKeys_replay (L : QVariantLayer V T) (members : List (String × JsonValue)) :
    (∀ kv ∈ members, SetIdempotent L kv.2) →
    ∀ (ks : List Nat) (props : List (String × Property V T)),
      namesDistinctProps props = true → (props.map Prod.fst).Nodup → ks.Nodup →
      (fillKeys L members ks props).thrown = none →
      fillKeys L members ks (fillKeys L members ks props).state =
        ⟨(fillKeys L members ks props).state, none⟩ := by
  induction members with
  | nil => intro _ ks props _ _ _ _; simp only [fillKeys]
  | cons kv rest ih =>
      obtain ⟨key, val⟩ := kv
      intro hval ks props hnd hnames hks hok
      have hfr := scanKeepers_frame L (fun p => setValue L p val) key [] ks props
      have hsub := scanKeepers_sublist L (fun p => setValue L p val) key [] ks props
      rw [List.nil_append] at hsub
      have hsk := scanKeepers_skeleton L (fun p => setValue L p val)
        (fun p => (fill_skeleton L val).2 p) key [] ks props
      have hU : ∀ a b, a ∈ ks → b ∈ ks → (props.map Prod.fst)[a]? = some key →
          (props.map Prod.fst)[b]? = some key → a = b := by
        intro a b _ _ ha hb
        exact List.getElem?_inj (List.getElem?_eq_some_iff.mp ha).1 hnames (ha.trans hb.symm)
      have hscan : (scanKeepers L (fun p => setValue L p val) key [] ks props).1.thrown
          = none := by
        rw [fillKeys] at hok
        split at hok
        · cases hok
        · assumption
      have hunfold : fillKeys L ((key, val) :: rest) ks props =
          fillKeys L rest (scanKeepers L (fun p => setValue L p val) key [] ks props).2
            (scanKeepers L (fun p => setValue L p val) key [] ks props).1.state := by
        rw [fillKeys]; simp only [hscan]
      rw [hunfold] at hok ⊢
      have hfr2 := fillKeys_frame L rest
        (scanKeepers L (fun p => setValue L p val) key [] ks props).2
        (scanKeepers L (fun p => setValue L p val) key [] ks props).1.state
      have hsk2 := fillKeys_skeleton L rest
        (scanKeepers L (fun p => setValue L p val) key [] ks props).2
        (scanKeepers L (fun p => setValue L p val) key [] ks props).1.state
      have hrest := ih (fun kv hkv => hval kv (List.mem_cons_of_mem _ hkv)) _ _
        ((namesDistinctProps_of_skeleton_eq hsk).trans hnd) (hfr.1 ▸ hnames)
        (hsub.nodup hks) hok
      have hreplay := scanKeepers_replay L (fun p => setValue L p val) key [] ks props hks hscan
        _ (hfr2.1.trans hfr.1)
        (by
          intro j _ n p q hp hq hget
          obtain ⟨q', hq', hskq⟩ := skeleton_getElem? (hsk2.trans hsk) j n p hp
          rw [hq] at hq'
          simp only [Option.some.injEq, Prod.mk.injEq, true_and] at hq'
          subst hq'
          exact getValue_ok_of_skeleton_eq L n p q hskq hget)
        (by
          intro j hj q hq
          obtain ⟨p, hp⟩ := getElem?_of_map_fst_eq (hfr2.1.trans hfr.1) j key q hq
          obtain ⟨hst, hnot⟩ := scanKeepers_matched L (fun p => setValue L p val) key [] ks
            props hks hU hscan j p hj (List.not_mem_nil _) hp
          have hthrown := scanKeepers_matched_thrown L (fun p => setValue L p val) key [] ks
            props hks hU hscan j p hj hp
          have hF := fillKeys_untouched L rest _
            (scanKeepers L (fun p => setValue L p val) key [] ks props).1.state j hnot
          rw [hF, hst] at hq
          simp only [Option.some.injEq, Prod.mk.injEq, true_and] at hq
          rw [← hq]
          exact hval (key, val) (List.mem_cons_self _ _) p
            (namesDistinct_getElem? props hnd j key p hp) hthrown)
      rw [fillKeys]
      simp only [hreplay]
      exact hrest

theorem fill_idempotent_of_set (L : QVariantLayer V T) (json : JsonValue)
    (h : SetIdempotent L json) (qo : QObject V T) (hn : qo.namesDistinct = true)
    (hok : (fillObjectFromJson L qo json).thrown = none) :
    fillObjectFromJson L (fillObjectFromJson L qo json).state json =
      ⟨(fillObjectFromJson L qo json).state, none⟩ := by
  have h1 := h (.object qo) (by simpa [Property.namesDistinct] using hn)
    (by rw [setValue_object]; exact hok)
  simp only [setValue_object, Result.mk.injEq, Property.object.injEq] at h1
  cases hr : fillObjectFromJson L (fillObjectFromJson L qo json).state json with
  | mk st th =>
      rw [hr] at h1
      simp only at h1
      rw [h1.1, h1.2]

theorem setValue_idempotent (L : QVariantLayer V T)
    (hW : ∀ v json, L.write (L.write v json) json = L.write v json) (json : JsonValue) :
    SetIdempotent L json := by
  have hsimple : ∀ (v : V) (json : JsonValue),
      setValue L (setValue L (.simple v) json).state json =
        ⟨(setValue L (.simple v) json).state, none⟩ := by
    intro v json
    have h1 : setValue L (.simple v) json = ⟨.simple (L.write v json), none⟩ := by
      simp only [setValue, QMetaSimpleKeeper.setValue]
    rw [h1]
    simp only [setValue, QMetaSimpleKeeper.setValue, hW]
  have hobj : ∀ (json : JsonValue), (∀ members, json ≠ .object members) →
      ∀ qo : QObject V T, (setValue L (.object qo) json).thrown ≠ none := by
    intro json hj qo
    rw [setValue_object]
    cases json with
    | object members => exact absurd rfl (hj members)
    | _ => cases qo; simp [fillObjectFromJson]
  refine @JsonValue.rec
    (fun json => SetIdempotent L json)
    (fun items => ∀ os : List (Option (QObject V T)), namesDistinctObjects os = true →
      (fillElements L items os).thrown = none →
      fillElements L items (fillElements L items os).state =
        ⟨(fillElements L items os).state, none⟩)
    (fun members => ∀ kv ∈ members, SetIdempotent L kv.2)
    (fun kv => SetIdempotent L kv.2)
    ?_ ?_ ?_ ?_ ?_ ?_ ?_ ?_ ?_ ?_ ?_ json
  · intro p _ hok
    cases p with
    | simple v => exact hsimple v _
    | array A vs => simp [setValue, QMetaArrayKeeper.setValue] at hok
    | object o => exact absurd hok (hobj _ (fun _ h => by cases h) o)
    | objectArray os => simp [setValue] at hok
  · intro b p _ hok
    cases p with
    | simple v => exact hsimple v _
    | array A vs => simp [setValue, QMetaArrayKeeper.setValue] at hok
    | object o => exact absurd hok (hobj _ (fun _ h => by cases h) o)
    | objectArray os => simp [setValue] at hok
  · intro n p _ hok
    cases p with
    | simple v => exact hsimple v _
    | array A vs => simp [setValue, QMetaArrayKeeper.setValue] at hok
    | object o => exact absurd hok (hobj _ (fun _ h => by cases h) o)
    | objectArray os => simp [setValue] at hok
  · intro str p _ hok
    cases p with
    | simple v => exact hsimple v _
    | array A vs => simp [setValue, QMetaArrayKeeper.setValue] at hok
    | object o => exact absurd hok (hobj _ (fun _ h => by cases h) o)
    | objectArray os => simp [setValue] at hok
  · intro items ih p hn hok
    cases p with
    | simple v => exact hsimple v _
    | array A vs =>
        have h1 : setValue L (.array A vs) (.array items) =
            ⟨.array A (items.map (L.value A)), none⟩ := by
          simp only [setValue, QMetaArrayKeeper.setValue]
        rw [h1]
        simp only [setValue, QMetaArrayKeeper.setValue]
    | object o => exact absurd hok (hobj _ (fun _ h => by cases h) o)
    | objectArray os =>
        by_cases hfirst : firstIsQObject os = true
        · have h1 : setValue L (.objectArray os) (.array items) =
              ⟨.objectArray (fillElements L items os).state,
                (fillElements L items os).thrown⟩ := by
            simp only [setValue, hfirst, if_true]
          rw [h1] at hok ⊢
          simp only at hok ⊢
          have hfirst' : firstIsQObject (fillElements L items os).state = true := by
            have h2 := (errorOf_objects_skeleton L (fillElements L items os).state).2
            have h3 := (errorOf_objects_skeleton L os).2
            rw [fillElements_skeleton] at h2
            rw [← h2, h3, hfirst]
          simp only [setValue, hfirst', if_true,
            ih os (by simpa [Property.namesDistinct] using hn) hok]
        · have h1 : setValue L (.objectArray os) (.array items) =
              ⟨.objectArray os, some .InvalidQObject⟩ := by
            simp only [setValue, hfirst]
            rfl
          rw [h1] at hok
          cases hok
  · intro members ih p hn hok
    cases p with
    | simple v => exact hsimple v _
    | array A vs => simp [setValue, QMetaArrayKeeper.setValue] at hok
    | object o =>
        cases o with
        | mk props =>
            have h1 : setValue L (.object (.mk props)) (.object members) =
                ⟨.object (.mk (fillKeys L members (getMetaKeepers props) props).state),
                  (fillKeys L members (getMetaKeepers props) props).thrown⟩ := by
              simp only [setValue]
            rw [h1] at hok ⊢
            simp only at hok ⊢
            simp only [setValue]
            simp only [Property.namesDistinct, QObject.namesDistinct, Bool.and_eq_true,
              decide_eq_true_eq] at hn
            have hlen : getMetaKeepers (fillKeys L members (getMetaKeepers props) props).state
                = getMetaKeepers props := by
              have hnames := (fillKeys_frame L members (getMetaKeepers props) props).1
              have hl : (fillKeys L members (getMetaKeepers props) props).state.length
                  = props.length := by simpa using congrArg List.length hnames
              show List.range _ = List.range _
              rw [hl]
            rw [hlen, fillKeys_replay L members ih (getMetaKeepers props) props hn.2 hn.1
              (by simpa [getMetaKeepers] using List.nodup_range props.length) hok]
    | objectArray os => simp [setValue] at hok
  · intro os _ _
    simp only [fillElements]
  · intro head tail ihh iht os hn hok
    cases os with
    | nil => simp only [fillElements]
    | cons x rest =>
        cases x with
        | none => cases head <;> simp [fillElements] at hok
        | some qo =>
            simp only [namesDistinctObjects, Bool.and_eq_true] at hn
            cases hth : (fillObjectFromJson L qo head).thrown with
            | some e => simp [fillElements, hth] at hok
            | none =>
                have h1 : fillElements L (head :: tail) (some qo :: rest) =
                    ⟨some (fillObjectFromJson L qo head).state :: (fillElements L tail rest).state,
                      (fillElements L tail rest).thrown⟩ := by
                  simp only [fillElements, hth]
                rw [h1] at hok ⊢
                simp only at hok
                have hfi := fill_idempotent_of_set L head ihh qo hn.1 hth
                have hti := iht rest hn.2 hok
                simp only [fillElements, hfi, hti]
  · intro kv h
    cases h
  · intro head tail ihh iht kv hkv
    rcases List.mem_cons.mp hkv with h | h
    · rw [h]; exact ihh
    · exact iht kv h
  · intro key val ih
    exact ih

/-! ## The claims -/

/-- C1. Round-trip on scalars: when every property of an object is scalar,
property names are pairwise distinct and reading a scalar then writing it back
is lossless, `getJsonFromObject` succeeds and `fillObjectFromJson` applied to
the object and its own JSON succeeds and leaves every property as it was. -/
theorem roundtrip_scalars (L : QVariantLayer V T)
    (hL : ∀ v, L.write v (L.fromVariant v) = v)
    (props : List (String × Property V T))
    (hs : ∀ n p, (n, p) ∈ props → ∃ v, p = .simple v)
    (hn : (props.map Prod.fst).Nodup) :
    ∃ j, getJsonFromObject L (.mk props) = .ok j ∧
      fillObjectFromJson L (.mk props) (.object j) = ⟨.mk props, none⟩ := by
  have hp : ∀ n p, (n, p) ∈ props →
      ∃ v, getValue L n p = .ok (n, v) ∧ setValue L p v = ⟨p, none⟩ := by
    intro n p hmem
    obtain ⟨v, rfl⟩ := hs n p hmem
    refine ⟨L.fromVariant v, ?_, ?_⟩
    · simp only [getValue, QMetaSimpleKeeper.getValue]
    · simp only [setValue, QMetaSimpleKeeper.setValue, hL]
  obtain ⟨j, hj, hfill⟩ := roundtrip_props L props hn hp
  refine ⟨j, ?_, ?_⟩
  · rw [getJsonFromObject]; exact hj
  · rw [fillObjectFromJson]; simp only [hfill]

/-- Witness of C1 on an object with two scalar properties. -/
theorem roundtrip_scalars_witness :
    ∃ j, getJsonFromObject jsonLayer
          (.mk [("age", .simple (.number 7)), ("name", .simple (.string "x"))]) = .ok j ∧
      fillObjectFromJson jsonLayer
          (.mk [("age", .simple (.number 7)), ("name", .simple (.string "x"))]) (.object j) =
        ⟨.mk [("age", .simple (.number 7)), ("name", .simple (.string "x"))], none⟩ :=
  roundtrip_scalars jsonLayer (fun _ => rfl) _
    (by
      intro n p h
      simp only [List.mem_cons, Prod.mk.injEq, List.mem_singleton, List.not_mem_nil,
        or_false] at h
      rcases h with h | h
      · exact ⟨_, h.2⟩
      · exact ⟨_, h.2⟩)
    (by decide)

/-- C2. Nested composite round-trip: for an object tree of any depth built from
scalar properties and nested-object properties, with pairwise distinct names in
every object and lossless scalar coercion, `getJsonFromObject` succeeds and
`fillObjectFromJson` on the object and its own JSON succeeds and leaves the
whole tree, at every depth, as it was. -/
theorem roundtrip_nested (L : QVariantLayer V T)
    (hL : ∀ v, L.write v (L.fromVariant v) = v)
    (o : QObject V T) (h : o.isScalarObjectTree = true) :
    ∃ j, getJsonFromObject L o = .ok j ∧
      fillObjectFromJson L o (.object j) = ⟨o, none⟩ :=
  roundtrip_tree L hL o h

/-- Witness of C2 on an object of nesting depth three. -/
theorem roundtrip_nested_witness :
    depthThree.isScalarObjectTree = true ∧
    ∃ j, getJsonFromObject jsonLayer depthThree = .ok j ∧
      fillObjectFromJson jsonLayer depthThree (.object j) = ⟨depthThree, none⟩ :=
  ⟨by decide, roundtrip_nested jsonLayer (fun _ => rfl) depthThree (by decide)⟩

/-- C3. Partial update: after `fillObjectFromJson(object, json)` on a JSON
object, a property whose name is not a key of `json` holds the value it held
before the call; this is so whether or not the call succeeds. -/
theorem untouched_without_key (L : QVariantLayer V T) (props : List (String × Property V T))
    (jsonObject : List (String × JsonValue)) (i : Nat) (name : String) (p : Property V T)
    (hi : props[i]? = some (name, p)) (hk : name ∉ qKeys jsonObject) :
    (fillObjectFromJson L (.mk props) (.object jsonObject)).state.props[i]? = some (name, p) := by
  rw [fillObjectFromJson]
  exact (fillKeys_frame L jsonObject (getMetaKeepers props) props).2 i name p hi hk

/-- Witness of C3: filling `a` and `b` from the JSON object with the single key
`a` keeps `b`. -/
theorem untouched_without_key_witness :
    (fillObjectFromJson jsonLayer twoScalars (.object [("a", .number 1)])).state.props[1]? =
      some ("b", .simple (.string "kept")) :=
  untouched_without_key jsonLayer _ [("a", .number 1)] 1 "b" (.simple (.string "kept"))
    rfl (by decide)

/-- C4, as stated, fails: no key of the JSON object names a property, yet the
call raises `InvalidQObject`, because the scan asks every keeper for its key
through `getValue`. -/
theorem unknown_key_raises :
    (∀ k ∈ qKeys [("unknown", JsonValue.number 1)], k ∉ brokenArrayHolder.props.map Prod.fst) ∧
    (fillObjectFromJson jsonLayer brokenArrayHolder
      (.object [("unknown", .number 1)])).thrown = some .InvalidQObject :=
  ⟨by decide, rfl⟩

/-- C4, amended. Unknown keys: when no key of the JSON object is the name of a
property of the object, `fillObjectFromJson` leaves the whole object unchanged,
and it succeeds provided `getValue` succeeds on every keeper of the object. -/
theorem unknown_keys_ignored (L : QVariantLayer V T) (props : List (String × Property V T))
    (jsonObject : List (String × JsonValue))
    (hk : ∀ k ∈ qKeys jsonObject, k ∉ props.map Prod.fst) :
    (fillObjectFromJson L (.mk props) (.object jsonObject)).state = .mk props ∧
    ((∀ n p, (n, p) ∈ props → ∃ kv, getValue L n p = .ok kv) →
      (fillObjectFromJson L (.mk props) (.object jsonObject)).thrown = none) := by
  rw [fillObjectFromJson]
  refine ⟨?_, ?_⟩
  · simp only [fillKeys_unmatched L jsonObject (getMetaKeepers props) props hk]
  · intro hget
    rw [fillKeys_noop L props (fun i n p hi => hget n p (List.getElem?_mem hi)) jsonObject]
    intro kv hkv i n p hi hkn
    exact absurd (List.mem_map.mpr ⟨(n, p), List.getElem?_mem hi, rfl⟩)
      (hk n (hkn ▸ List.mem_map.mpr ⟨kv, hkv, rfl⟩))

/-- Witness of C4 amended: the key `unknown` on the object with properties `a`
and `b`. -/
theorem unknown_keys_ignored_witness :
    (fillObjectFromJson jsonLayer twoScalars (.object [("unknown", .number 1)])).state
        = twoScalars ∧
    (fillObjectFromJson jsonLayer twoScalars (.object [("unknown", .number 1)])).thrown
        = none :=
  ⟨(unknown_keys_ignored jsonLayer _ [("unknown", .number 1)] (by decide)).1,
   (unknown_keys_ignored jsonLayer _ [("unknown", .number 1)] (by decide)).2 (by
      intro n p h
      simp only [List.mem_cons, Prod.mk.injEq, List.mem_singleton, List.not_mem_nil,
        or_false] at h
      rcases h with ⟨rfl, rfl⟩ | ⟨rfl, rfl⟩
      · exact ⟨_, rfl⟩
      · exact ⟨_, rfl⟩)⟩

/-- C5. Object shape mismatch: on a JSON value that is not an object,
`fillObjectFromJson`, and with it `QMetaObjectKeeper::setValue`, raises
`JsonObjectExpected` and leaves the object unchanged. -/
theorem object_expected (L : QVariantLayer V T) (qo : QObject V T) (json : JsonValue)
    (h : ∀ members, json ≠ .object members) :
    fillObjectFromJson L qo json = ⟨qo, some .JsonObjectExpected⟩ ∧
    setValue L (.object qo) json = ⟨.object qo, some .JsonObjectExpected⟩ := by
  have hf : fillObjectFromJson L qo json = ⟨qo, some .JsonObjectExpected⟩ := by
    cases json with
    | object members => exact absurd rfl (h members)
    | _ => cases qo; simp only [fillObjectFromJson]
  exact ⟨hf, by rw [setValue_object, hf]⟩

/-- Witness of C5 on a JSON array. -/
theorem object_expected_witness :
    fillObjectFromJson jsonLayer twoScalars (.array [.number 1]) =
      ⟨twoScalars, some .JsonObjectExpected⟩ ∧
    setValue jsonLayer (.object twoScalars) (.array [.number 1]) =
      ⟨.object twoScalars, some .JsonObjectExpected⟩ :=
  object_expected jsonLayer twoScalars (.array [.number 1]) (fun _ h => by cases h)

/-- C6. Array shape mismatch: on a JSON value that is not an array, `setValue`
of an array keeper and `setValue` of an object-array keeper both raise
`JsonArrayExpected` and leave the property unchanged, whatever the existing
sequence of the object-array keeper holds. -/
theorem array_expected (L : QVariantLayer V T) (json : JsonValue)
    (h : ∀ items, json ≠ .array items) (A : T) (vs : List V)
    (os : List (Option (QObject V T))) :
    setValue L (.array A vs) json = ⟨.array A vs, some .JsonArrayExpected⟩ ∧
    setValue L (.objectArray os) json = ⟨.objectArray os, some .JsonArrayExpected⟩ := by
  cases json with
  | array items => exact absurd rfl (h items)
  | _ => simp only [setValue, QMetaArrayKeeper.setValue, and_self]

/-- Witness of C6 on a JSON object, with an existing sequence that starts with
a null pointer. -/
theorem array_expected_witness :
    setValue jsonLayer (.array () [.number 1]) (.object []) =
      ⟨.array () [.number 1], some .JsonArrayExpected⟩ ∧
    setValue jsonLayer (.objectArray [none]) (.object []) =
      ⟨.objectArray [none], some .JsonArrayExpected⟩ :=
  array_expected jsonLayer (.object []) (fun _ h => by cases h) () [.number 1] [none]

/-- C7. Array replace semantics: `setValue(jsonArr)` on an array keeper
succeeds and leaves in the property exactly the coerced elements of `jsonArr`,
in order, whatever the property held; when the coercion of these elements is
lossless, `getValue` then returns the property name with `jsonArr`. -/
theorem array_replace (L : QVariantLayer V T) (A : T) (old : List V)
    (jsonArr : List JsonValue) (name : String)
    (hL : ∀ item ∈ jsonArr, L.fromVariant (L.value A item) = item) :
    setValue L (.array A old) (.array jsonArr) = ⟨.array A (jsonArr.map (L.value A)), none⟩ ∧
    getValue L name (setValue L (.array A old) (.array jsonArr)).state =
      .ok (name, .array jsonArr) := by
  have hmap : List.map L.fromVariant (List.map (L.value A) jsonArr) = jsonArr := by
    rw [List.map_map]
    conv_rhs => rw [← List.map_id jsonArr]
    exact List.map_congr_left (fun item hitem => by simpa using hL item hitem)
  simp only [setValue, QMetaArrayKeeper.setValue, getValue, QMetaArrayKeeper.getValue, hmap,
    and_self]

/-- Witness of C7: a sequence of three elements replaced by one of two. -/
theorem array_replace_witness :
    setValue jsonLayer (.array () [.number 1, .number 2, .number 3])
        (.array [.string "x", .null]) = ⟨.array () [.string "x", .null], none⟩ ∧
    getValue jsonLayer "tags" (setValue jsonLayer (.array () [.number 1, .number 2, .number 3])
        (.array [.string "x", .null])).state = .ok ("tags", .array [.string "x", .null]) :=
  array_replace jsonLayer () [.number 1, .number 2, .number 3] [.string "x", .null] "tags"
    (fun _ _ => rfl)

/-- C8. Object-array length mismatch: on an existing sequence of `n` non-null
objects and a JSON array of `m` elements such that `fillObjectFromJson`
succeeds on the pairs of index below `min n m`, `setValue` succeeds; the
sequence keeps its length, element `i < min n m` is the result of
`fillObjectFromJson(existing[i], json[i])`, the elements of index `m` and above
are untouched, and the JSON elements of index `n` and above are never looked
at, whatever they are. -/
theorem object_array_length_mismatch (L : QVariantLayer V T) (objects : List (QObject V T))
    (jsonArray : List JsonValue)
    (h : ∀ x ∈ List.zip objects jsonArray, (fillObjectFromJson L x.1 x.2).thrown = none) :
    setValue L (.objectArray (objects.map some)) (.array jsonArray) =
      ⟨.objectArray ((filledPrefix L objects jsonArray).map some), none⟩ ∧
    (filledPrefix L objects jsonArray).length = objects.length ∧
    (∀ (i : Nat) (qo : QObject V T) (item : JsonValue), objects[i]? = some qo →
      jsonArray[i]? = some item →
      (filledPrefix L objects jsonArray)[i]? = some (fillObjectFromJson L qo item).state) ∧
    (∀ i : Nat, jsonArray.length ≤ i →
      (filledPrefix L objects jsonArray)[i]? = objects[i]?) := by
  have hfirst : firstIsQObject (objects.map some) = true := by
    cases objects <;> rfl
  refine ⟨?_, ?_, ?_, ?_⟩
  · simp only [setValue, hfirst, if_true, fillElements_valid L objects jsonArray h]
  · simp only [filledPrefix, List.length_append, List.length_zipWith, List.length_drop]
    omega
  · intro i qo item hq hi
    have hlt : i < (List.zipWith (fun qo item => (fillObjectFromJson L qo item).state)
        objects jsonArray).length := by
      have h1 := (List.getElem?_eq_some_iff.mp hq).1
      have h2 := (List.getElem?_eq_some_iff.mp hi).1
      simp only [List.length_zipWith]
      omega
    simp only [filledPrefix]
    rw [List.getElem?_append_left hlt, List.getElem?_zipWith, hq, hi]
  · intro i hi
    have hlen : (List.zipWith (fun qo item => (fillObjectFromJson L qo item).state)
        objects jsonArray).length ≤ i := by
      simp only [List.length_zipWith]
      omega
    simp only [filledPrefix]
    rw [List.getElem?_append_right hlen, List.getElem?_drop, List.length_zipWith]
    by_cases hn : objects.length ≤ jsonArray.length
    · rw [Nat.min_eq_left hn, List.getElem?_eq_none (by omega), List.getElem?_eq_none (by omega)]
    · rw [Nat.min_eq_right (by omega)]
      congr 1
      omega

/-- Witness of C8: two existing objects and a JSON array of three elements,
the third of which is not even an object. -/
theorem object_array_length_mismatch_witness :
    setValue jsonLayer (.objectArray ([counter 1, counter 2].map some))
        (.array [.object [("n", .number 7)], .object [], .null]) =
      ⟨.objectArray ((filledPrefix jsonLayer [counter 1, counter 2]
        [.object [("n", .number 7)], .object [], .null]).map some), none⟩ ∧
    (filledPrefix jsonLayer [counter 1, counter 2]
      [.object [("n", .number 7)], .object [], .null]).length = [counter 1, counter 2].length ∧
    (∀ (i : Nat) (qo : QObject JsonValue Unit) (item : JsonValue),
      [counter 1, counter 2][i]? = some qo →
      [JsonValue.object [("n", .number 7)], .object [], .null][i]? = some item →
      (filledPrefix jsonLayer [counter 1, counter 2]
        [.object [("n", .number 7)], .object [], .null])[i]? =
          some (fillObjectFromJson jsonLayer qo item).state) ∧
    (∀ i : Nat, [JsonValue.object [("n", .number 7)], .object [], .null].length ≤ i →
      (filledPrefix jsonLayer [counter 1, counter 2]
        [.object [("n", .number 7)], .object [], .null])[i]? = [counter 1, counter 2][i]?) :=
  object_array_length_mismatch jsonLayer [counter 1, counter 2]
    [.object [("n", .number 7)], .object [], .null] (by decide)

/-- C9, as stated, fails: every element of the sequence is a reflective object,
yet `getValue` of the object-array keeper raises, because serializing the
element raises. -/
theorem nested_failure_in_object_array :
    (∀ x ∈ [some brokenArrayHolder], x.isSome = true) ∧
    getValue jsonLayer "list" (.objectArray [some brokenArrayHolder]) =
      .error .InvalidQObject :=
  ⟨by decide, rfl⟩

/-- C9, amended. `getValue` of an object-array keeper succeeds exactly when
every element of the sequence is a reflective object on which
`getJsonFromObject` succeeds (vacuously for the empty sequence); it then
returns the property name with the JSON array, of the same length, whose
element `i` is the JSON of element `i`. When the first element of the sequence
is not a reflective object it raises `InvalidQObject`. -/
theorem object_array_getValue (L : QVariantLayer V T) (name : String)
    (os : List (Option (QObject V T))) :
    (∀ kv, getValue L name (.objectArray os) = .ok kv ↔
      ∃ objs jsons, os = objs.map some ∧
        List.Forall₂ (fun qo j => getJsonFromObject L qo = .ok j) objs jsons ∧
        kv = (name, .array (jsons.map JsonValue.object))) ∧
    (∀ rest, getValue L name (.objectArray (none :: rest)) = .error .InvalidQObject) := by
  refine ⟨?_, fun rest => by simp [getValue, firstIsQObject]⟩
  intro kv
  constructor
  · intro h
    simp only [getValue] at h
    split at h
    · split at h
      · cases h
      · rename_i js hjs
        obtain ⟨objs, jsons, hobjs, hall, hj⟩ := (getJsonFromObjects_ok_iff L os js).mp hjs
        simp only [Except.ok.injEq] at h
        exact ⟨objs, jsons, hobjs, hall, by rw [← h, hj]⟩
    · cases h
  · rintro ⟨objs, jsons, hobjs, hall, hkv⟩
    have hfirst : firstIsQObject os = true := by
      rw [hobjs]
      cases objs <;> rfl
    have hjs := (getJsonFromObjects_ok_iff L os (jsons.map JsonValue.object)).mpr
      ⟨objs, jsons, hobjs, hall, rfl⟩
    simp only [getValue, hfirst, if_true, hjs, hkv]

/-- C10. `getJsonFromObject` correctness: when `getValue` succeeds on every
keeper of the object, `getJsonFromObject` returns a JSON object, without
repeated key, whose keys are exactly the property names, and in which the
value under a name is the value returned by `getValue` of the last property of
that name; with pairwise distinct names that is the value of the one property
of that name. -/
theorem getJsonFromObject_correct (L : QVariantLayer V T)
    (props : List (String × Property V T))
    (hget : ∀ n p, (n, p) ∈ props → ∃ kv, getValue L n p = .ok kv) :
    ∃ j, getJsonFromObject L (.mk props) = .ok j ∧
      (qKeys j).Nodup ∧
      (∀ k, k ∈ qKeys j ↔ k ∈ props.map Prod.fst) ∧
      (∀ before n p after, props = before ++ (n, p) :: after → n ∉ after.map Prod.fst →
        ∃ v, getValue L n p = .ok (n, v) ∧ qValue n j = some v) ∧
      ((props.map Prod.fst).Nodup → ∀ n p, (n, p) ∈ props →
        ∃ v, getValue L n p = .ok (n, v) ∧ qValue n j = some v) := by
  obtain ⟨j, hj⟩ := getJsonFromKeepers_ok L props hget []
  have hlast : ∀ before n p after, props = before ++ (n, p) :: after →
      n ∉ after.map Prod.fst → ∃ v, getValue L n p = .ok (n, v) ∧ qValue n j = some v := by
    intro before n p after hprops hn
    exact getJsonFromKeepers_last L before n p after hn [] j (hprops ▸ hj)
  refine ⟨j, by rw [getJsonFromObject]; exact hj, ?_, ?_, hlast, ?_⟩
  · have hs := getJsonFromKeepers_sorted L props [] j hj (by simp [qKeys])
    unfold List.Nodup
    refine hs.imp ?_
    intro a b hlt heq
    rw [heq] at hlt
    exact lt_irrefl _ hlt
  · intro k
    rw [getJsonFromKeepers_keys L props [] j hj k]
    simp [qKeys]
  · intro hnodup n p hmem
    obtain ⟨before, after, hsplit⟩ := List.append_of_mem hmem
    refine hlast before n p after hsplit ?_
    rw [hsplit, List.map_append, List.map_cons, List.nodup_append] at hnodup
    exact (List.nodup_cons.mp hnodup.2.1).1

/-- Witness of C10 on an object with two properties of the same name: the
value of the second one is the value found under the key. -/
theorem getJsonFromObject_correct_witness :
    ∃ j, getJsonFromObject jsonLayer sameNameTwice = .ok j ∧
      (qKeys j).Nodup ∧
      (∀ k, k ∈ qKeys j ↔ k ∈ sameNameTwice.props.map Prod.fst) ∧
      (∀ before n p after, sameNameTwice.props = before ++ (n, p) :: after →
        n ∉ after.map Prod.fst →
        ∃ v, getValue jsonLayer n p = .ok (n, v) ∧ qValue n j = some v) ∧
      ((sameNameTwice.props.map Prod.fst).Nodup → ∀ n p, (n, p) ∈ sameNameTwice.props →
        ∃ v, getValue jsonLayer n p = .ok (n, v) ∧ qValue n j = some v) :=
  getJsonFromObject_correct jsonLayer _ (by
    intro n p h
    simp only [List.mem_cons, Prod.mk.injEq, List.mem_singleton, List.not_mem_nil,
      or_false] at h
    rcases h with ⟨rfl, rfl⟩ | ⟨rfl, rfl⟩
    · exact ⟨_, rfl⟩
    · exact ⟨_, rfl⟩)

/-- C11. Scatter correctness: on an object with pairwise distinct property
names, a successful `fillObjectFromJson` leaves every property whose name is a
key of the JSON object in the state reached by one `setValue` with the value
under that key, and every other property as it was. This holds for every value
layer, in particular for one whose writes count the calls: no matching keeper
is missed after an earlier keeper was erased from the scan list, and no keeper
is written twice. -/
theorem scatter_correct (L : QVariantLayer V T) (props : List (String × Property V T))
    (jsonObject : List (String × JsonValue))
    (hn : (props.map Prod.fst).Nodup)
    (hok : (fillObjectFromJson L (.mk props) (.object jsonObject)).thrown = none) :
    (fillObjectFromJson L (.mk props) (.object jsonObject)).state =
      .mk (scatter L jsonObject props) := by
  rw [fillObjectFromJson] at hok ⊢
  simp only [QObject.mk.injEq] at hok ⊢
  have hspec := fillKeys_scatter L jsonObject (getMetaKeepers props) props hn
    (by simpa [getMetaKeepers] using List.nodup_range props.length) hok
  have hnames := (fillKeys_frame L jsonObject (getMetaKeepers props) props).1
  apply List.ext_getElem?
  intro j
  cases hj : props[j]? with
  | none =>
      have hlen : (fillKeys L jsonObject (getMetaKeepers props) props).state.length
          = props.length := by
        simpa using congrArg List.length hnames
      have hge := List.getElem?_eq_none_iff.mp hj
      rw [List.getElem?_eq_none (by omega), List.getElem?_eq_none (by simp [scatter]; omega)]
  | some np =>
      obtain ⟨n, p⟩ := np
      have hmem : j ∈ getMetaKeepers props := by
        simp only [getMetaKeepers, List.mem_range]
        exact (List.getElem?_eq_some_iff.mp hj).1
      rw [hspec j n p hj, if_pos hmem]
      simp only [scatter, List.getElem?_map, hj, Option.map_some']

/-- Witness of C11 with the counting layer: the keys `a`, `b`, `d` on the
properties `a`, `b`, `c`, `d`; the matched keepers are adjacent in the scan
list, and each of them is written once. -/
theorem scatter_correct_witness :
    (fillObjectFromJson countingLayer fourCounters
      (.object [("a", .null), ("b", .null), ("d", .null)])).state =
      .mk (scatter countingLayer [("a", .null), ("b", .null), ("d", .null)]
        fourCounters.props) ∧
    scatter countingLayer [("a", .null), ("b", .null), ("d", .null)] fourCounters.props =
      [("a", .simple 1), ("b", .simple 1), ("c", .simple 0), ("d", .simple 1)] :=
  ⟨scatter_correct countingLayer _ [("a", .null), ("b", .null), ("d", .null)]
    (by decide) rfl, rfl⟩

/-- C12. No rollback on failure: there is an object and a JSON object on which
`fillObjectFromJson` raises an error and leaves the object in a state that
differs from the state before the call. On the scalar `a` and the scalar array
`b`, with `a` mapped to `1` and `b` mapped to `5`, the property `a` is written
and then `b` raises `JsonArrayExpected`. -/
theorem no_rollback :
    ∃ (qo : QObject JsonValue Unit) (jsonObject : List (String × JsonValue)),
      (fillObjectFromJson jsonLayer qo (.object jsonObject)).thrown =
        some .JsonArrayExpected ∧
      (fillObjectFromJson jsonLayer qo (.object jsonObject)).state.props[0]? =
        some ("a", .simple (.number 1)) ∧
      (fillObjectFromJson jsonLayer qo (.object jsonObject)).state ≠ qo := by
  refine ⟨scalarThenArray, [("a", .number 1), ("b", .number 5)], rfl, rfl, ?_⟩
  intro h
  have h0 := congrArg (fun o => o.props[0]?) h
  have h1 : (fillObjectFromJson jsonLayer scalarThenArray
      (.object [("a", .number 1), ("b", .number 5)])).state.props[0]? =
        some ("a", .simple (.number 1)) := rfl
  simp only [h1] at h0
  simp [scalarThenArray, QObject.props] at h0

/-- C13. Error propagation: if a call reached at any nesting depth from a
top-level `getJsonFromObject` or `fillObjectFromJson` (through the keepers of
the object, object keepers and object-array keepers, every earlier call having
returned normally) raises the error `e`, then the top-level call raises `e`:
the error is not swallowed, replaced or turned into a value on the way up. -/
theorem error_propagates (L : QVariantLayer V T) (top c : Call V T) (e : QSException)
    (h : Relation.ReflTransGen (Calls L) top c) (he : c.thrown L = some e) :
    top.thrown L = some e := by
  induction h with
  | refl => exact he
  | tail _ hstep ih => exact ih (hstep.step_propagates e he)

/-- Witness of C13: the array keeper two levels down raises `JsonArrayExpected`
on a JSON number, and so does `fillObjectFromJson` on the outer object. -/
theorem error_propagates_witness :
    (fillObjectFromJson jsonLayer nestedArrayHolder
      (.object [("sub", .object [("xs", .number 5)])])).thrown = some .JsonArrayExpected := by
  have h1 : Calls jsonLayer
      (.objectFill nestedArrayHolder (.object [("sub", .object [("xs", .number 5)])]))
      (.keeperSet (.object (.mk [("xs", .array () [])])) (.object [("xs", .number 5)])) :=
    Calls.fill_keeper (FillCalls.here (@ScanCalls.set _ _ jsonLayer "sub" _ 0 [] _ "sub" _
      ("sub", .object [("xs", .array [])]) rfl rfl rfl))
  have h2 : Calls jsonLayer
      (.keeperSet (.object (.mk [("xs", .array () [])])) (.object [("xs", .number 5)]))
      (.objectFill (.mk [("xs", .array () [])]) (.object [("xs", .number 5)])) :=
    Calls.set_object
  have h3 : Calls jsonLayer
      (.objectFill (.mk [("xs", .array () [])]) (.object [("xs", .number 5)]))
      (.keeperSet (.array () []) (.number 5)) :=
    Calls.fill_keeper (FillCalls.here (@ScanCalls.set _ _ jsonLayer "xs" _ 0 [] _ "xs" _
      ("xs", .array []) rfl rfl rfl))
  exact error_propagates jsonLayer _ _ .JsonArrayExpected
    (((Relation.ReflTransGen.single h1).tail h2).tail h3) rfl

/-- C14. Graph-shape invariant: whatever the JSON value, and whether the call
succeeds or raises, `fillObjectFromJson` leaves the shape of the object graph
as it was: every object array, at every nesting depth, keeps its elements
position by position, so no nested object is added or removed and no sequence
changes its length. -/
theorem shape_preserved (L : QVariantLayer V T) (qo : QObject V T) (json : JsonValue) :
    (fillObjectFromJson L qo json).state.skeleton = qo.skeleton ∧
    ∀ (i : Nat) (name : String) (os : List (Option (QObject V T))),
      qo.props[i]? = some (name, .objectArray os) →
      ∃ os', (fillObjectFromJson L qo json).state.props[i]? = some (name, .objectArray os') ∧
        os'.length = os.length := by
  have hsk := (fill_skeleton L json).1 qo
  refine ⟨hsk, ?_⟩
  intro i name os hi
  cases hq : (fillObjectFromJson L qo json).state with
  | mk props' =>
    cases qo with
    | mk props =>
      rw [hq] at hsk
      simp only [QObject.skeleton, QObject.mk.injEq, skeletonProps_eq_map] at hsk
      simp only [QObject.props] at hi ⊢
      have hi' := congrArg (fun l => l[i]?) hsk
      simp only [List.getElem?_map, hi, Option.map_some'] at hi'
      cases hp : props'[i]? with
      | none => simp [hp] at hi'
      | some np =>
          obtain ⟨n', p'⟩ := np
          simp only [hp, Option.map_some', Option.some.injEq, Prod.mk.injEq] at hi'
          obtain ⟨hn, hp'⟩ := hi'
          cases p' with
          | objectArray os' =>
              simp only [Property.skeleton, Property.objectArray.injEq] at hp'
              refine ⟨os', by rw [hn], ?_⟩
              rw [← skeletonObjects_length os', hp', skeletonObjects_length]
          | simple v => simp [Property.skeleton] at hp'
          | array A vs => simp [Property.skeleton] at hp'
          | object o => simp [Property.skeleton] at hp'

/-- Witness of C14: an object array of two elements filled from a JSON array of
three elements, next to a nested object filled from a JSON number. -/
theorem shape_preserved_witness :
    (fillObjectFromJson jsonLayer arrayHolder
      (.object [("list", .array [.object [("n", .number 9)], .null, .object []]),
                ("sub", .number 0)])).state.skeleton = arrayHolder.skeleton ∧
    ∀ (i : Nat) (name : String) (os : List (Option (QObject JsonValue Unit))),
      arrayHolder.props[i]? = some (name, .objectArray os) →
      ∃ os', (fillObjectFromJson jsonLayer arrayHolder
        (.object [("list", .array [.object [("n", .number 9)], .null, .object []]),
                  ("sub", .number 0)])).state.props[i]? = some (name, .objectArray os') ∧
        os'.length = os.length :=
  shape_preserved jsonLayer arrayHolder _

/-- C15. Termination: `getJsonFromObject` and `fillObjectFromJson` return, with
a result or an error, on every finite object tree and every JSON value, and
their recursion is well founded on the nesting depth of the object graph: every
call made by a call, the `getValue` calls of the key lookup in
`fillObjectFromJson` included, has a strictly smaller rank, where the rank is
twice the nesting depth of the object for a walker call and one more than twice
the depth below the property for a keeper call. So a walker call reached from
another walker call is on a strictly less deep object. -/
theorem calls_descend (L : QVariantLayer V T) :
    (∀ qo : QObject V T, ∃ r, getJsonFromObject L qo = r) ∧
    (∀ (qo : QObject V T) (json : JsonValue), ∃ r, fillObjectFromJson L qo json = r) ∧
    (∀ parent child : Call V T, Calls L parent child → child.rank < parent.rank) ∧
    (∀ top c : Call V T, Relation.TransGen (Calls L) top c → c.rank < top.rank) ∧
    WellFounded (fun child parent : Call V T => Calls L parent child) := by
  have hstep : ∀ parent child : Call V T, Calls L parent child → child.rank < parent.rank :=
    fun _ _ h => h.rank_lt
  refine ⟨fun qo => ⟨_, rfl⟩, fun qo json => ⟨_, rfl⟩, hstep, ?_, ?_⟩
  · intro top c h
    induction h with
    | single h => exact hstep _ _ h
    | tail _ h ih => exact Nat.lt_trans (hstep _ _ h) ih
  · exact Subrelation.wf (fun {a b} h => hstep b a h) (InvImage.wf Call.rank Nat.lt_wfRel.wf)

/-- C16. Serialization is read-only: run with the object as explicit state,
`getJsonFromObject` and `getValue` of each of the four keepers return the
object graph exactly as they received it, whether they succeed or raise, and
their outcome is the one of the functions used everywhere else in this
development. Consequently the key lookups of `fillObjectFromJson` do not alter
the object: when the `setValue` it invokes writes nothing, the scan returns the
properties as they were, although it has asked the keepers for their key. -/
theorem serialization_reads_only (L : QVariantLayer V T) :
    (∀ qo : QObject V T, getJsonFromObjectRun L qo = (qo, getJsonFromObject L qo)) ∧
    (∀ (name : String) (p : Property V T), getValueRun L name p = (p, getValue L name p)) ∧
    (∀ (set : Property V T → Result (Property V T)), (∀ p, (set p).state = p) →
      ∀ (key : String) (before after : List Nat) (props : List (String × Property V T)),
        (scanKeepers L set key before after props).1.state = props) :=
  ⟨getJsonFromObjectRun_eq L, getValueRun_eq L,
    fun set hset key before after props =>
      scanKeepers_reads_only L set hset key before after props⟩

/-- Witness of C16 on an object whose serialization raises, and on a scan
whose `setValue` only raises. -/
theorem serialization_reads_only_witness :
    getJsonFromObjectRun jsonLayer brokenArrayHolder =
      (brokenArrayHolder, .error .InvalidQObject) ∧
    (scanKeepers jsonLayer (fun p => ⟨p, some .JsonArrayExpected⟩) "a" [] [0, 1]
      twoScalars.props).1.state = twoScalars.props :=
  ⟨(serialization_reads_only jsonLayer).1 brokenArrayHolder,
   (serialization_reads_only jsonLayer).2.2 (fun p => ⟨p, some .JsonArrayExpected⟩)
     (fun _ => rfl) "a" [] [0, 1] twoScalars.props⟩

/-- C17, as stated, fails: names are distinct and the first
`fillObjectFromJson` succeeds, yet the second one with the same JSON leaves
another state, on a scalar property whose write is not idempotent (here every
write adds one to the value held). -/
theorem second_fill_differs :
    oneCounter.namesDistinct = true ∧
    (fillObjectFromJson countingLayer oneCounter (.object [("a", .null)])).thrown = none ∧
    (fillObjectFromJson countingLayer oneCounter (.object [("a", .null)])).state.props[0]? =
      some ("a", .simple 1) ∧
    (fillObjectFromJson countingLayer
      (fillObjectFromJson countingLayer oneCounter (.object [("a", .null)])).state
      (.object [("a", .null)])).state.props[0]? = some ("a", .simple 2) ∧
    fillObjectFromJson countingLayer
      (fillObjectFromJson countingLayer oneCounter (.object [("a", .null)])).state
      (.object [("a", .null)]) ≠
      ⟨(fillObjectFromJson countingLayer oneCounter (.object [("a", .null)])).state, none⟩ := by
  refine ⟨rfl, rfl, rfl, rfl, ?_⟩
  intro h
  have h2 := congrArg (fun r => r.state.props[0]?) h
  have h3 : (fillObjectFromJson countingLayer
      (fillObjectFromJson countingLayer oneCounter (.object [("a", .null)])).state
      (.object [("a", .null)])).state.props[0]? = some ("a", .simple 2) := rfl
  have h4 : (fillObjectFromJson countingLayer oneCounter
      (.object [("a", .null)])).state.props[0]? = some ("a", .simple 1) := rfl
  simp only [h3, h4, Option.some.injEq, Prod.mk.injEq, Property.simple.injEq, true_and] at h2
  exact absurd h2 (by decide)

/-- C17, amended. Deserialization is idempotent when scalar writes are: if
writing a JSON value to a scalar property twice leaves what writing it once
leaves, then for every object graph with distinct property names in every
object and every JSON value on which `fillObjectFromJson` succeeds, a second
`fillObjectFromJson` with the same JSON succeeds and leaves the object graph in
the state reached after the first. -/
theorem fill_idempotent (L : QVariantLayer V T)
    (hW : ∀ v json, L.write (L.write v json) json = L.write v json)
    (qo : QObject V T) (json : JsonValue) (hn : qo.namesDistinct = true)
    (hok : (fillObjectFromJson L qo json).thrown = none) :
    fillObjectFromJson L (fillObjectFromJson L qo json).state json =
      ⟨(fillObjectFromJson L qo json).state, none⟩ :=
  fill_idempotent_of_set L json (setValue_idempotent L hW json) qo hn hok

/-- Witness of C17 amended, on the target graph filled from a JSON object with
a scalar, an array, a nested object and an array of objects. -/
theorem fill_idempotent_witness :
    fillObjectFromJson jsonLayer
      (fillObjectFromJson jsonLayer targetGraph
        (.object [("id", .number 3), ("list", .array [.object [("n", .number 5)]]),
                  ("sub", .object [("flag", .null)]), ("tags", .array [.bool true])])).state
      (.object [("id", .number 3), ("list", .array [.object [("n", .number 5)]]),
                ("sub", .object [("flag", .null)]), ("tags", .array [.bool true])]) =
    ⟨(fillObjectFromJson jsonLayer targetGraph
        (.object [("id", .number 3), ("list", .array [.object [("n", .number 5)]]),
                  ("sub", .object [("flag", .null)]), ("tags", .array [.bool true])])).state,
      none⟩ :=
  fill_idempotent jsonLayer (fun _ _ => rfl) targetGraph _ (by decide) rfl

/-- C18. State transfer: for two object graphs `a` and `b` of the same shape
(same names and kinds at every depth, distinct names in every object, object
arrays of equal length without null pointer) between which scalar coercion is
lossless, `getJsonFromObject a` succeeds, `fillObjectFromJson` on `b` with that
JSON succeeds, and afterwards the JSON of `b` is the JSON of `a`; scalar,
scalar-array, nested-object and object-array properties are covered together. -/
theorem state_transfer (L : QVariantLayer V T) (a b : QObject V T)
    (h : Transferable L a b) :
    ∃ j, getJsonFromObject L a = .ok j ∧
      (fillObjectFromJson L b (.object j)).thrown = none ∧
      getJsonFromObject L (fillObjectFromJson L b (.object j)).state = .ok j :=
  (transfer_tree L a b h).2

/-- Witness of C18 on two graphs with a scalar, a scalar array, a nested
object and an object array. -/
theorem state_transfer_witness :
    ∃ j, getJsonFromObject jsonLayer sourceGraph = .ok j ∧
      (fillObjectFromJson jsonLayer targetGraph (.object j)).thrown = none ∧
      getJsonFromObject jsonLayer (fillObjectFromJson jsonLayer targetGraph (.object j)).state
        = .ok j :=
  state_transfer jsonLayer sourceGraph targetGraph (by
    simp only [sourceGraph, targetGraph, counter, Transferable, transferableProps,
      transferableProperty, transferableObjects, jsonLayer, and_self, implies_true,
      and_true, true_and]
    decide)

end QJsonMarshaler
